import Mathlib

/-!
Verification of the algorithmic core of the Kasimkkn/code-editor repository.

The development shallowly embeds the TypeScript sources:
  - src/src/utils/trieDataStructure.ts : KMP, Boyer-Moore, Rabin-Karp and
    Aho-Corasick matchers (the feature-complete, case-configurable variants);
  - src/unnamed/part_000 : the enhanced completion-index trie with
    wordEndings, fuzzy search and removal;
  - src/src/components/EditorTabs.tsx : the LCS line-diff engine with
    modification merging and Levenshtein similarity.

Modelling conventions:
  - JavaScript strings are modelled as Lean String and List Char; iteration
    "for (const c of s)" corresponds to s.data.  Code-unit versus code-point
    subtleties of UTF-16 are outside the scope of the claims.
  - JavaScript numbers are modelled as Nat or Int; where the source performs
    modular hash arithmetic we use Int, which is exact for all values the
    source can produce while Math.pow stays below 2^1024.
  - While-loops are modelled by structurally recursive functions on an
    explicit fuel argument; every top-level entry point passes a fuel that
    dominates the loop's iteration count, so the embedded function computes
    the same value as the source loop.
  - JavaScript Map objects are modelled as association lists with the Map
    update discipline: set replaces an existing key in place and appends a
    fresh key at the end; delete removes the key.
-/

namespace CodeEditor

/-- Model of String.prototype.toLowerCase restricted to ASCII, applied
characterwise; the claims under verification are insensitive to the exact
case-folding function because every trie operation applies the same one. -/
def jsToLower (s : String) : String :=
  String.mk (s.data.map Char.toLower)

/-- Model of String.prototype.trim: drop leading and trailing whitespace. -/
def jsTrim (s : String) : String :=
  String.mk (((s.data.dropWhile Char.isWhitespace).reverse.dropWhile
    Char.isWhitespace).reverse)

/-- Word normalisation used by the trie: word.trim().toLowerCase(). -/
def normalize (s : String) : String :=
  jsToLower (jsTrim s)

/-- Levenshtein distance, the classic unit-cost dynamic program shared by the
diff engine (levenshteinDistance in EditorTabs.tsx) and the trie
(Trie.editDistance in part_000).  Both sources fill the textbook DP table
dp[i][j] = if eq then dp[i-1][j-1] else 1 + min3; the function below is that
recurrence, written structurally so that it evaluates by kernel reduction. -/
def levCons (x : Char) (la : List Char → Nat) : List Char → Nat
  | [] => la [] + 1
  | y :: b =>
    if x = y then la b
    else 1 + Nat.min (la (y :: b)) (Nat.min (levCons x la b) (la b))

/-- Levenshtein distance on character lists. -/
def lev : List Char → List Char → Nat
  | [], b => b.length
  | x :: a, b => levCons x (lev a) b

/-- Spec-side naive scan for single-pattern matching: pattern p occurs in
text t at position i when the slice of t of length p starting at i is p. -/
def occursAt (p t : List Char) (i : Nat) : Bool :=
  decide ((t.drop i).take p.length = p)

/-- Spec-side list of all 0-based occurrence positions of p in t, in strictly
increasing order (overlaps included): the naive substring scan. -/
def naivePositions (p t : List Char) : List Nat :=
  (List.range t.length).filter (occursAt p t)

/-! ## KMP matcher (trieDataStructure.ts, enhanced variant, lines 365-477) -/

/-- One step-at-a-time embedding of the while-loop of KMPMatcher.computeLPS.
State: lps array (as a list), len, i.  Fuel dominates the iteration count. -/
def lpsLoop (p : List Char) : Nat → List Nat → Nat → Nat → List Nat
  | 0, arr, _, _ => arr
  | fuel + 1, arr, len, i =>
    if i < p.length then
      if p[i]? = p[len]? then
        lpsLoop p fuel (arr.set i (len + 1)) (len + 1) (i + 1)
      else
        if len ≠ 0 then
          lpsLoop p fuel arr (arr.getD (len - 1) 0) i
        else
          lpsLoop p fuel (arr.set i 0) 0 (i + 1)
    else arr

/-- KMPMatcher.computeLPS: failure table of the pattern.  Each loop iteration
increments i or strictly decreases len, and len < i ≤ m, so the loop runs at
most 2·m times; fuel 2·m + 1 therefore reproduces the source loop exactly. -/
def computeLPS (p : List Char) : List Nat :=
  if p.length = 0 then []
  else lpsLoop p (2 * p.length + 1) (List.replicate p.length 0) 0 1

/-- The while-loop of KMPMatcher.findAll.  Indices i (text) and j (pattern);
on a full match the start i - j is recorded and j falls back via lps. -/
def kmpLoop (p t : List Char) (lps : List Nat) : Nat → Nat → Nat → List Nat
  | 0, _, _ => []
  | fuel + 1, i, j =>
    if i < t.length then
      let ij := if p[j]? = t[i]? then (i + 1, j + 1) else (i, j)
      let i1 := ij.1
      let j1 := ij.2
      if j1 = p.length then
        (i1 - j1) :: kmpLoop p t lps fuel i1 (lps.getD (j1 - 1) 0)
      else
        if i1 < t.length ∧ p[j1]? ≠ t[i1]? then
          if j1 ≠ 0 then kmpLoop p t lps fuel i1 (lps.getD (j1 - 1) 0)
          else kmpLoop p t lps fuel (i1 + 1) j1
        else kmpLoop p t lps fuel i1 j1
    else []

/-- KMPMatcher.findAll with the caseSensitive flag of the constructor: the
pattern is case-folded at construction, the text before the scan.  Each loop
iteration advances i or strictly decreases j, and j grows only together with
i, so 2·n + 1 fuel dominates the loop. -/
def kmpFindAll (caseSensitive : Bool) (pat text : String) : List Nat :=
  let p := if caseSensitive then pat.data else (jsToLower pat).data
  if text.data.length = 0 ∨ p.length = 0 then []
  else
    let t := if caseSensitive then text.data else (jsToLower text).data
    kmpLoop p t (computeLPS p) (2 * t.length + 1) 0 0

/-- The while-loop of KMPMatcher.findFirst; returns -1 when no match. -/
def kmpFirstLoop (p t : List Char) (lps : List Nat) : Nat → Nat → Nat → Int
  | 0, _, _ => -1
  | fuel + 1, i, j =>
    if i < t.length then
      let ij := if p[j]? = t[i]? then (i + 1, j + 1) else (i, j)
      let i1 := ij.1
      let j1 := ij.2
      if j1 = p.length then ((i1 : Int) - j1)
      else
        if i1 < t.length ∧ p[j1]? ≠ t[i1]? then
          if j1 ≠ 0 then kmpFirstLoop p t lps fuel i1 (lps.getD (j1 - 1) 0)
          else kmpFirstLoop p t lps fuel (i1 + 1) j1
        else kmpFirstLoop p t lps fuel i1 j1
    else -1

/-- KMPMatcher.findFirst. -/
def kmpFindFirst (caseSensitive : Bool) (pat text : String) : Int :=
  let p := if caseSensitive then pat.data else (jsToLower pat).data
  if text.data.length = 0 ∨ p.length = 0 then -1
  else
    let t := if caseSensitive then text.data else (jsToLower text).data
    kmpFirstLoop p t (computeLPS p) (2 * t.length + 1) 0 0

/-! ## Boyer-Moore matcher (trieDataStructure.ts, enhanced variant, lines 479-627) -/

/-- Association-list lookup with JavaScript Map.get semantics. -/
def mapGet {α β : Type} [DecidableEq α] (l : List (α × β)) (k : α) : Option β :=
  (l.find? (fun e => e.1 = k)).map (fun e => e.2)

/-- Association-list update with JavaScript Map.set semantics: replace the
entry in place when the key exists, append it otherwise. -/
def mapSet {α β : Type} [DecidableEq α] (l : List (α × β)) (k : α) (v : β) :
    List (α × β) :=
  if l.any (fun e => e.1 = k) then
    l.map (fun e => if e.1 = k then (k, v) else e)
  else l ++ [(k, v)]

/-- BoyerMooreMatcher.buildBadCharTable: last index of each pattern char. -/
def buildBadCharTable (p : List Char) : List (Char × Nat) :=
  (List.range p.length).foldl (fun tbl i => mapSet tbl (p.getD i ' ') i) []

/-- The source reads the table as "this.badChar.get(c) || -1".  Because 0 is
falsy in JavaScript, a character whose last index in the pattern is 0 is
reported as -1, exactly like an absent character; the embedding reproduces
this faithfully. -/
def badCharOrNeg (tbl : List (Char × Nat)) (c : Char) : Int :=
  match mapGet tbl c with
  | none => -1
  | some 0 => -1
  | some k => (k : Int)

/-- Inner while-loop of buildGoodSuffixTable: walk j through the suffix
array while pattern[i-1] differs from pattern[j-1], updating shift.  In the
source j strictly increases via suffix[j] up to m + 1; fuel m + 2 dominates. -/
def gsInner (p : List Char) (m i : Nat) (suffix : List Nat) :
    Nat → Nat → List Nat → Nat × List Nat
  | 0, j, shift => (j, shift)
  | fuel + 1, j, shift =>
    if j ≤ m ∧ p[i - 1]? ≠ p[j - 1]? then
      let shift1 := if shift.getD j 0 = m then shift.set j (j - i) else shift
      gsInner p m i suffix fuel (suffix.getD j 0) shift1
    else (j, shift)

/-- Outer loop of buildGoodSuffixTable: while i > 0, run the inner loop,
then decrement i and j and record suffix[i] = j.  The countdown argument is
the current value of i, so the recursion is structural. -/
def gsOuter (p : List Char) (m : Nat) :
    Nat → Nat → List Nat → List Nat → List Nat × List Nat
  | 0, _, suffix, shift => (suffix, shift)
  | i + 1, j, suffix, shift =>
    let r := gsInner p m (i + 1) suffix (m + 2) j shift
    let j1 := r.1 - 1
    gsOuter p m i j1 (suffix.set i j1) r.2

/-- Second pass of buildGoodSuffixTable: propagate the prefix-as-suffix
case.  The source iterates i = 0 .. m; the fuel counts the remaining
iterations, m + 1 at the start. -/
def gsCase2 (suffix : List Nat) (m : Nat) : Nat → Nat → Nat → List Nat → List Nat
  | 0, _, _, shift => shift
  | fuel + 1, i, j, shift =>
    if i ≤ m then
      let shift1 := if shift.getD i 0 = m then shift.set i j else shift
      let j1 := if i = j then suffix.getD j 0 else j
      gsCase2 suffix m fuel (i + 1) j1 shift1
    else shift

/-- BoyerMooreMatcher.buildGoodSuffixTable. -/
def buildGoodSuffixTable (p : List Char) : List Nat :=
  let m := p.length
  let shift0 := List.replicate (m + 1) m
  let suffix0 := (List.replicate (m + 1) 0).set m (m + 1)
  let r := gsOuter p m m (m + 1) suffix0 shift0
  gsCase2 r.1 m (m + 1) 0 (r.1.getD 0 0) r.2

/-- Right-to-left window comparison of Boyer-Moore: returns none on a full
match (j ran below 0) and some j at the first mismatch position. -/
def bmCheck (p t : List Char) (shift : Nat) : Nat → Option Nat
  | 0 => if p[0]? = t[shift]? then none else some 0
  | j + 1 =>
    if p[j + 1]? = t[shift + (j + 1)]? then bmCheck p t shift j
    else some (j + 1)

/-- The while-loop of BoyerMooreMatcher.findAll: scan windows left to right,
compare right to left, shift by the max of the (falsy-zero) bad character
rule and the good suffix rule.  Every iteration increases shift by at least
1 whenever the good-suffix entries are positive, so the fuel dominates. -/
def bmLoop (p t : List Char) (badChar : List (Char × Nat))
    (goodSuffix : List Nat) : Nat → Nat → List Nat
  | 0, _ => []
  | fuel + 1, shift =>
    if (shift : Int) ≤ (t.length : Int) - (p.length : Int) then
      match bmCheck p t shift (p.length - 1) with
      | none =>
        shift :: bmLoop p t badChar goodSuffix fuel (shift + goodSuffix.getD 0 0)
      | some j =>
        let badShift := max 1 ((j : Int) - badCharOrNeg badChar (t.getD (shift + j) ' '))
        let goodShift := (goodSuffix.getD (j + 1) 0 : Int)
        bmLoop p t badChar goodSuffix fuel (shift + (max badShift goodShift).toNat)
    else []

/-- BoyerMooreMatcher.findAll. -/
def bmFindAll (caseSensitive : Bool) (pat text : String) : List Nat :=
  let p := if caseSensitive then pat.data else (jsToLower pat).data
  if text.data.length = 0 ∨ p.length = 0 then []
  else
    let t := if caseSensitive then text.data else (jsToLower text).data
    bmLoop p t (buildBadCharTable p) (buildGoodSuffixTable p) (t.length + 1) 0

/-- The while-loop of BoyerMooreMatcher.findFirst. -/
def bmFirstLoop (p t : List Char) (badChar : List (Char × Nat))
    (goodSuffix : List Nat) : Nat → Nat → Int
  | 0, _ => -1
  | fuel + 1, shift =>
    if (shift : Int) ≤ (t.length : Int) - (p.length : Int) then
      match bmCheck p t shift (p.length - 1) with
      | none => (shift : Int)
      | some j =>
        let badShift := max 1 ((j : Int) - badCharOrNeg badChar (t.getD (shift + j) ' '))
        let goodShift := (goodSuffix.getD (j + 1) 0 : Int)
        bmFirstLoop p t badChar goodSuffix fuel (shift + (max badShift goodShift).toNat)
    else -1

/-- BoyerMooreMatcher.findFirst. -/
def bmFindFirst (caseSensitive : Bool) (pat text : String) : Int :=
  let p := if caseSensitive then pat.data else (jsToLower pat).data
  if text.data.length = 0 ∨ p.length = 0 then -1
  else
    let t := if caseSensitive then text.data else (jsToLower text).data
    bmFirstLoop p t (buildBadCharTable p) (buildGoodSuffixTable p) (t.length + 1) 0

/-! ## Rabin-Karp multi-pattern matcher (trieDataStructure.ts, lines 629-789)

The source hashes with base 256 modulo the prime 101 over JavaScript
numbers.  All intermediate values of computeHash and rollingHash are exact
integers below 2^53 as long as Math.pow(256, patternLength - 1) is finite
and exact, which holds for pattern lengths up to 128; the embedding uses
exact Int arithmetic, hence is faithful in that range. -/

/-- RabinKarpMatcher.computeHash: left-to-right polynomial hash mod 101. -/
def computeHash (s : List Char) : Int :=
  s.foldl (fun h c => (h * 256 + (c.toNat : Int)) % 101) 0

/-- Unreduced polynomial value of a string under base 256, used to relate
computeHash and rollingHash in the correctness proof. -/
def polyVal (s : List Char) : Int :=
  s.foldl (fun h c => h * 256 + (c.toNat : Int)) 0

/-- RabinKarpMatcher.computePatternHashes: bucket the (nonempty) patterns by
their hash, preserving insertion order. -/
def computePatternHashes (patterns : List (List Char)) : List (Int × List (List Char)) :=
  patterns.foldl
    (fun hs p =>
      if p.length = 0 then hs
      else mapSet hs (computeHash p) ((mapGet hs (computeHash p)).getD [] ++ [p]))
    []

/-- RabinKarpMatcher.rollingHash: drop the leftmost character of the window,
append the next one.  Math.pow(base, patternLength-1) %% prime becomes an
exact Int power here. -/
def rollingHash (oldHash : Int) (oldChar newChar : Char) (patternLength : Nat) : Int :=
  let power : Int := (256 ^ (patternLength - 1)) % 101
  let h1 := (oldHash - ((oldChar.toNat : Int) * power) % 101 + 101) % 101
  (h1 * 256 + (newChar.toNat : Int)) % 101

/-- RabinKarpMatcher.checkHashMatch: on a hash-bucket hit, verify by direct
substring comparison and record the position for each matching pattern. -/
def checkHashMatch (text : List Char)
    (patternHashes : List (Int × List (List Char))) (pos len : Nat) (h : Int)
    (patterns : List (List Char)) (m : List (List Char × List Nat)) :
    List (List Char × List Nat) :=
  match mapGet patternHashes h with
  | none => m
  | some candidates =>
    let sub := (text.drop pos).take len
    patterns.foldl
      (fun m p =>
        if candidates.contains p ∧ p = sub then
          mapSet m p ((mapGet m p).getD [] ++ [pos])
        else m)
      m

/-- The rolling-window loop of searchPatternsOfLength: i runs from len to
text.length - 1; the fuel is the number of remaining iterations. -/
def rkLoop (text : List Char) (patternHashes : List (Int × List (List Char)))
    (patterns : List (List Char)) (len : Nat) :
    Nat → Int → Nat → List (List Char × List Nat) → List (List Char × List Nat)
  | 0, _, _, m => m
  | fuel + 1, h, i, m =>
    if i < text.length then
      let h1 := rollingHash h (text.getD (i - len) ' ') (text.getD i ' ') len
      let m1 := checkHashMatch text patternHashes (i - len + 1) len h1 patterns m
      rkLoop text patternHashes patterns len fuel h1 (i + 1) m1
    else m

/-- RabinKarpMatcher.searchPatternsOfLength for one length group. -/
def searchPatternsOfLength (text : List Char)
    (patternHashes : List (Int × List (List Char)))
    (patterns : List (List Char)) (len : Nat) : List (List Char × List Nat) :=
  let m0 := patterns.foldl (fun m p => mapSet m p []) []
  if text.length < len then []
  else
    let h0 := computeHash (text.take len)
    let m1 := checkHashMatch text patternHashes 0 len h0 patterns m0
    let mF := rkLoop text patternHashes patterns len text.length h0 len m1
    mF.filter (fun e => e.2.length ≠ 0)

/-- RabinKarpMatcher.findAllPatterns over already case-folded patterns and
text: group the patterns by length, scan each group whose length fits. -/
def findAllPatterns (patterns : List (List Char)) (text : List Char) :
    List (List Char × List Nat) :=
  if text.length = 0 ∨ patterns.length = 0 then []
  else
    let patternHashes := computePatternHashes patterns
    let byLen := patterns.foldl
      (fun g p =>
        if p.length = 0 then g
        else mapSet g p.length ((mapGet g p.length).getD [] ++ [p]))
      []
    byLen.foldl
      (fun results e =>
        if text.length < e.1 then results
        else results ++ searchPatternsOfLength text patternHashes e.2 e.1)
      []

/-- The per-pattern position list of a findAllPatterns result (empty when
the pattern has no entry, matching the source's omission of empty lists). -/
def rkPositions (results : List (List Char × List Nat)) (p : List Char) : List Nat :=
  ((results.find? (fun e => e.1 = p)).map (fun e => e.2)).getD []

/-- Math.pow(base, patternLength - 1) %% prime under IEEE-754 doubles:
256^(L-1) = 2^(8(L-1)) is a power of two, exactly representable while it
fits (8(L-1) <= 1023) and Infinity once 8(L-1) >= 1024, i.e. L >= 129;
Infinity %% 101 is NaN, while a finite power of two has an exact fmod.
none models NaN. -/
def jsPowRem (L : Nat) : Option Int :=
  if 129 ≤ L then none else some ((256 ^ (L - 1)) % 101)

/-- rollingHash under double semantics: all intermediate values are far
below 2^53 except the Math.pow power, so the only divergence from exact
integer arithmetic is the NaN (none) that appears once the pattern length
reaches 129 and then propagates through every subsequent window update. -/
def rollingHashJS (oldHash : Option Int) (oldChar newChar : Char)
    (patternLength : Nat) : Option Int :=
  match jsPowRem patternLength, oldHash with
  | some power, some oh =>
    some ((((oh - ((oldChar.toNat : Int) * power) % 101 + 101) % 101) * 256
      + (newChar.toNat : Int)) % 101)
  | _, _ => none

/-- checkHashMatch reached with a possibly-NaN hash: the Map's keys are the
finite pattern hashes, and Map.get(NaN) finds none of them (SameValueZero
equates NaN only with NaN), so a NaN hash verifies nothing. -/
def checkHashMatchJS (text : List Char) (patternHashes : List (Int × List (List Char)))
    (pos len : Nat) (h : Option Int) (patterns : List (List Char))
    (m : List (List Char × List Nat)) : List (List Char × List Nat) :=
  match h with
  | none => m
  | some hv => checkHashMatch text patternHashes pos len hv patterns m

/-- The rolling-window loop under double semantics. -/
def rkLoopJS (text : List Char) (patternHashes : List (Int × List (List Char)))
    (patterns : List (List Char)) (len : Nat) :
    Nat → Option Int → Nat → List (List Char × List Nat) → List (List Char × List Nat)
  | 0, _, _, m => m
  | fuel + 1, h, i, m =>
    if i < text.length then
      let h1 := rollingHashJS h (text.getD (i - len) ' ') (text.getD i ' ') len
      let m1 := checkHashMatchJS text patternHashes (i - len + 1) len h1 patterns m
      rkLoopJS text patternHashes patterns len fuel h1 (i + 1) m1
    else m

/-- searchPatternsOfLength under double semantics: the initial window hash
comes from computeHash, whose iterated (h*256+c) %% 101 stays far below 2^53
and is therefore exact even for long patterns; only rollingHash diverges. -/
def searchPatternsOfLengthJS (text : List Char)
    (patternHashes : List (Int × List (List Char)))
    (patterns : List (List Char)) (len : Nat) : List (List Char × List Nat) :=
  let m0 := patterns.foldl (fun m p => mapSet m p []) []
  if text.length < len then []
  else
    let h0 := computeHash (text.take len)
    let m1 := checkHashMatchJS text patternHashes 0 len (some h0) patterns m0
    let mF := rkLoopJS text patternHashes patterns len text.length (some h0) len m1
    mF.filter (fun e => e.2.length ≠ 0)

/-- findAllPatterns under double semantics. -/
def findAllPatternsJS (patterns : List (List Char)) (text : List Char) :
    List (List Char × List Nat) :=
  if text.length = 0 ∨ patterns.length = 0 then []
  else
    let patternHashes := computePatternHashes patterns
    let byLen := patterns.foldl
      (fun g p =>
        if p.length = 0 then g
        else mapSet g p.length ((mapGet g p.length).getD [] ++ [p]))
      []
    byLen.foldl
      (fun results e =>
        if text.length < e.1 then results
        else results ++ searchPatternsOfLengthJS text patternHashes e.2 e.1)
      []

/-! ## Aho-Corasick matcher (trieDataStructure.ts, lines 971-1079)

Nodes live in an arena indexed by Nat; index 0 is the root.  failure and
output links are stored as indices. -/

/-- One automaton node: children, failure link, collected output pattern
indices, end-of-word marker, pattern index. -/
structure ACNode where
  children : List (Char × Nat)
  failure : Option Nat
  output : List Nat
  isEndOfWord : Bool
  patternIndex : Option Nat
deriving Repr, DecidableEq

/-- Fresh Aho-Corasick node. -/
def acEmpty : ACNode := ⟨[], none, [], false, none⟩

/-- Arena read with the root as default (never out of bounds in practice). -/
def getN (arena : List ACNode) (i : Nat) : ACNode := arena.getD i acEmpty

/-- AhoCorasickMatcher.buildTrie, one pattern: walk/create nodes, mark the
terminal node with the pattern index. -/
def acInsertPath (idx : Nat) : List ACNode → Nat → List Char → List ACNode
  | arena, cur, [] =>
    let n := getN arena cur
    arena.set cur { n with isEndOfWord := true, patternIndex := some idx }
  | arena, cur, c :: rest =>
    match mapGet (getN arena cur).children c with
    | some child => acInsertPath idx arena child rest
    | none =>
      let newIdx := arena.length
      let arena1 := arena ++ [acEmpty]
      let n := getN arena1 cur
      let arena2 := arena1.set cur { n with children := mapSet n.children c newIdx }
      acInsertPath idx arena2 newIdx rest

/-- AhoCorasickMatcher.buildTrie over all patterns. -/
def acBuildTrie (patterns : List (List Char)) : List ACNode :=
  (patterns.enum).foldl (fun arena ip => acInsertPath ip.1 arena 0 ip.2) [acEmpty]

/-- The failure-link walk of buildFailureLinks: follow failure links from a
node's parent-failure until a node with a c-child is found or the chain ends
(null).  Fuel dominates the chain length. -/
def acFailWalk (arena : List ACNode) (c : Char) : Nat → Option Nat → Option Nat
  | 0, f => f
  | fuel + 1, f =>
    match f with
    | none => none
    | some fi =>
      if (mapGet (getN arena fi).children c).isSome then some fi
      else acFailWalk arena c fuel (getN arena fi).failure

/-- Process one dequeued node of the BFS of buildFailureLinks: for each
child, enqueue it, resolve its failure link, and copy output links (the
failure node's output, plus the child's own pattern when it ends a word). -/
def acProcessNode (arena : List ACNode) (queue : List Nat) (cur : Nat) :
    List ACNode × List Nat :=
  (getN arena cur).children.foldl
    (fun acc ce =>
      let arena := acc.1
      let childIdx := ce.2
      let fw := acFailWalk arena ce.1 (arena.length + 1) (getN arena cur).failure
      let fIdx : Nat :=
        match fw with
        | none => 0
        | some fi => (mapGet (getN arena fi).children ce.1).getD 0
      let child := getN arena childIdx
      let out := (getN arena fIdx).output ++
        (if child.isEndOfWord then [child.patternIndex.getD 0] else [])
      (arena.set childIdx { child with failure := some fIdx, output := out },
       acc.2 ++ [childIdx]))
    (arena, queue)

/-- The BFS queue loop of buildFailureLinks; each node is enqueued exactly
once, so the arena size bounds the iteration count. -/
def acBFS : Nat → List ACNode → List Nat → List ACNode
  | 0, arena, _ => arena
  | _ + 1, arena, [] => arena
  | fuel + 1, arena, cur :: rest =>
    let step := acProcessNode arena rest cur
    acBFS fuel step.1 step.2

/-- AhoCorasickMatcher.buildFailureLinks: root children fail to the root and
seed the queue, then BFS. -/
def acBuildFailureLinks (arena : List ACNode) : List ACNode :=
  let rootChildren := (getN arena 0).children
  let arena1 := rootChildren.foldl
    (fun a ce => a.set ce.2 { getN a ce.2 with failure := some 0 }) arena
  acBFS (arena.length + 1) arena1 (rootChildren.map (fun ce => ce.2))

/-- The mismatch walk of findAllMatches: while not at the root and no
c-child exists, follow the failure link. -/
def acUp (arena : List ACNode) (c : Char) : Nat → Nat → Nat
  | 0, cur => cur
  | fuel + 1, cur =>
    if cur ≠ 0 ∧ (mapGet (getN arena cur).children c).isNone then
      acUp arena c fuel ((getN arena cur).failure.getD 0)
    else cur

/-- AhoCorasickMatcher.findAllMatches: build the automaton from the nonempty
patterns (constructor filter) and scan the text once, emitting one
(pattern, position, patternIndex) triple per output link hit. -/
def acFindAllMatches (patterns : List (List Char)) (text : List Char) :
    List (List Char × Int × Nat) :=
  let pats := patterns.filter (fun p => p.length ≠ 0)
  let arena := acBuildFailureLinks (acBuildTrie pats)
  (text.enum.foldl
    (fun (acc : List (List Char × Int × Nat) × Nat) ic =>
      let cur := acUp arena ic.2 (arena.length + 1) acc.2
      let cur1 :=
        match mapGet (getN arena cur).children ic.2 with
        | some child => child
        | none => cur
      let hits := (getN arena cur1).output.map
        (fun pi => (pats.getD pi [], (ic.1 : Int) - (pats.getD pi []).length + 1, pi))
      (acc.1 ++ hits, cur1))
    ([], 0)).1

/-! ## Completion-index trie (src/unnamed/part_000)

TrieNode has children (a Map), isEndOfWord, frequency, wordEndings; parent
and depth are derived bookkeeping (the parent back-reference only serves
getChar during pruning, which the functional embedding performs directly on
the path).  The persistence layer (localStorage) is outside the claims; a
trie is created empty or built by insert calls. -/

/-- A trie node: children as an association list with Map semantics,
end-of-word flag, frequency, and the complete words ending here. -/
inductive TNode where
  | mk : List (Char × TNode) → Bool → Nat → List String → TNode

/-- Children of a node. -/
def TNode.children : TNode → List (Char × TNode)
  | .mk c _ _ _ => c

/-- End-of-word flag of a node. -/
def TNode.isEndOfWord : TNode → Bool
  | .mk _ e _ _ => e

/-- Frequency counter of a node. -/
def TNode.frequency : TNode → Nat
  | .mk _ _ f _ => f

/-- Complete words terminating at this node. -/
def TNode.wordEndings : TNode → List String
  | .mk _ _ _ w => w

/-- Map.delete on children: remove the entry with the given key. -/
def eraseChild (l : List (Char × TNode)) (c : Char) : List (Char × TNode) :=
  l.filter (fun e => e.1 ≠ c)

/-- The trie object: root node plus wordCount and maxDepth bookkeeping. -/
structure Trie where
  root : TNode
  wordCount : Nat
  maxDepth : Nat

/-- A freshly constructed, empty trie (the source rehydrates from storage or
starts from defaults; the claims quantify over arbitrary trie states). -/
def emptyTrie : Trie := ⟨.mk [] false 0 [], 0, 0⟩

/-- Walk from a node along a character list (the shared descent loop of
contains, getFrequency and remove). -/
def findNode : TNode → List Char → Option TNode
  | n, [] => some n
  | n, c :: rest =>
    match mapGet n.children c with
    | some child => findNode child rest
    | none => none

/-- The node-walking part of Trie.insert: create missing children, then mark
the terminal node, bump its frequency and record the word ending. -/
def TNode.insertPath (w : String) : TNode → List Char → TNode
  | n, [] =>
    .mk n.children true (n.frequency + 1)
      (if w ∈ n.wordEndings then n.wordEndings else n.wordEndings ++ [w])
  | n, c :: rest =>
    let child := (mapGet n.children c).getD (.mk [] false 0 [])
    .mk (mapSet n.children c (TNode.insertPath w child rest))
      n.isEndOfWord n.frequency n.wordEndings

/-- Trie.insert: normalize, walk/create, update wordCount and maxDepth when
the word is new. -/
def Trie.insert (t : Trie) (word : String) : Trie :=
  let w := normalize word
  if w.length = 0 then t
  else
    let wasNewWord :=
      match findNode t.root w.data with
      | some m => !m.isEndOfWord
      | none => true
    { root := TNode.insertPath w t.root w.data
      wordCount := if wasNewWord then t.wordCount + 1 else t.wordCount
      maxDepth := if wasNewWord then max t.maxDepth w.length else t.maxDepth }

/-- Trie.contains: normalize, walk, read the end-of-word flag. -/
def Trie.contains (t : Trie) (word : String) : Bool :=
  let w := normalize word
  if w.length = 0 then false
  else
    match findNode t.root w.data with
    | some m => m.isEndOfWord
    | none => false

/-- Trie.getFrequency: normalize, walk, read the frequency of terminal
nodes; 0 for absent words. -/
def Trie.getFrequency (t : Trie) (word : String) : Nat :=
  let w := normalize word
  if w.length = 0 then 0
  else
    match findNode t.root w.data with
    | some m => if m.isEndOfWord then m.frequency else 0
    | none => 0

/-- The recursive core of Trie.remove.  none means the word is absent (the
source returns false without mutating anything).  some (n', dead) means the
word was found and unmarked; n' is the updated node and dead signals that
the source's upward pruning loop deletes this node from its parent (not end
of word, no children).  Once a node is kept the loop breaks, which the
recursion reflects: a kept child is simply re-stored. -/
def removeGo (w : String) : TNode → List Char → Option (TNode × Bool)
  | n, [] =>
    if n.isEndOfWord then
      let n1 : TNode := .mk n.children false (n.frequency - 1)
        (n.wordEndings.filter (fun x => x ≠ w))
      some (n1, n1.children.length = 0)
    else none
  | n, c :: rest =>
    match mapGet n.children c with
    | none => none
    | some child =>
      match removeGo w child rest with
      | none => none
      | some (child1, dead) =>
        if dead then
          let n1 : TNode := .mk (eraseChild n.children c) n.isEndOfWord n.frequency n.wordEndings
          some (n1, !n1.isEndOfWord ∧ n1.children.length = 0)
        else
          some (.mk (mapSet n.children c child1) n.isEndOfWord n.frequency n.wordEndings, false)

/-- Trie.remove: returns whether the word was present together with the
resulting trie (the root itself is never pruned; wordCount is decremented
exactly when the word was found). -/
def Trie.remove (t : Trie) (word : String) : Bool × Trie :=
  let w := normalize word
  if w.length = 0 then (false, t)
  else
    match removeGo w t.root w.data with
    | none => (false, t)
    | some (root1, _) =>
      (true, { root := root1, wordCount := t.wordCount - 1, maxDepth := t.maxDepth })

/-- Trie.collectWords with its recursion-depth safety valve: emit the word
at end-of-word nodes, stop descending once the prefix is longer than 50
characters.  The source recursion can therefore reach depth at most 52 from
the root; the structural fuel argument, set to 52 at the top level, makes
the embedding compute exactly the source's result. -/
def collectWords : Nat → TNode → List Char → List (List Char × Nat)
  | 0, _, _ => []
  | fuel + 1, n, p =>
    (if n.isEndOfWord then [(p, n.frequency)] else []) ++
    (if 50 < p.length then []
     else n.children.flatMap (fun ce => collectWords fuel ce.2 (p ++ [ce.1])))

/-- Trie.collectAllWords: collect from the root with the empty prefix. -/
def collectAllWords (t : Trie) : List (List Char × Nat) :=
  collectWords 52 t.root []

/-- Insertion sort used as the embedding of Array.prototype.sort: le a b
means a precedes b (comparator result not positive).  All sorted lists in
the verified claims have at most one element, for which any comparison sort
coincides with the source. -/
def insertSorted {α : Type} (le : α → α → Bool) (x : α) : List α → List α
  | [] => [x]
  | y :: ys => if le x y then x :: y :: ys else y :: insertSorted le x ys

/-- Insertion sort driver. -/
def sortBy {α : Type} (le : α → α → Bool) : List α → List α
  | [] => []
  | x :: xs => insertSorted le x (sortBy le xs)

/-- The fuzzySearch comparator: distance ascending, then frequency
descending, then lexicographic (localeCompare modelled as code-point
order). -/
def fuzzyLe (a b : List Char × Nat × Nat) : Bool :=
  if a.2.1 ≠ b.2.1 then a.2.1 < b.2.1
  else if a.2.2 ≠ b.2.2 then b.2.2 < a.2.2
  else !decide (b.1 < a.1)

/-- Trie.fuzzySearch: compute the edit distance from the normalized query
to every collected stored word, keep those within maxDistance, sort by
(distance, frequency, word) and return the top 10 words. -/
def Trie.fuzzySearch (t : Trie) (query : String) (maxDistance : Nat) : List String :=
  let q := normalize query
  if q.length = 0 then []
  else
    let results := (collectAllWords t).filterMap
      (fun e =>
        let d := lev q.data e.1
        if d ≤ maxDistance then some (e.1, d, e.2) else none)
    ((sortBy fuzzyLe results).take 10).map (fun e => String.mk e.1)

/-! ## Line-diff engine (EditorTabs.tsx, lines 116-262)

split('\n'), an LCS table over the line sequences, a backtrack emitting
DiffLine records, and a post-process that merges an adjacent removed/added
pair into a modified record when the Levenshtein similarity exceeds 0.3.
Similarity is modelled in ℚ (the source computes `1 - distance / maxLen` in
binary floating point; every comparison appearing in the verified claims is
far from the 0.3 threshold, so the models agree). -/

/-- Record type of one diff line. -/
inductive DiffType where
  | unchanged | added | removed | modified
deriving Repr, DecidableEq

/-- DiffLine record: the aligned left/right lines, their 1-based line
numbers (-1 when absent), the record type and the optional similarity. -/
structure DiffLine where
  leftLine : String
  rightLine : String
  leftLineNumber : Int
  rightLineNumber : Int
  type : DiffType
  similarity : Option ℚ
deriving Repr, DecidableEq

/-- DiffStats aggregate counters. -/
structure DiffStats where
  additions : Int
  deletions : Int
  modifications : Int
  unchanged : Int
deriving Repr, DecidableEq

/-- Result of a diff computation. -/
structure DiffResult where
  diffLines : List DiffLine
  stats : DiffStats
deriving Repr, DecidableEq

/-- String.prototype.split('\n') at the character-list level: literal
separator split, empty pieces kept, [""] for the empty string. -/
def splitChars : List Char → List (List Char)
  | [] => [[]]
  | c :: rest =>
    let r := splitChars rest
    if c = '\n' then [] :: r else (c :: r.headD []) :: r.tail

/-- left.split('\n') as a list of lines. -/
def splitLines (s : String) : List String :=
  (splitChars s.data).map String.mk

/-- Inverse of the line split: interleave the pieces with newlines. -/
def joinChars : List (List Char) → List Char
  | [] => []
  | [l] => l
  | l :: ls => l ++ '\n' :: joinChars ls

/-- Join a list of lines with newline separators. -/
def joinWithNewline (ls : List String) : String :=
  String.mk (joinChars (ls.map String.data))

/-- One row of the LCS table, built left to right: diag is the previous
row's entry one column back, cp the current row's previous entry, prev the
rest of the previous row from the current column on. -/
def lcsRowGo (lLine : String) : List String → List Nat → Nat → Nat → List Nat
  | [], _, _, _ => []
  | r :: rs, prev, diag, cp =>
    let pj := prev.headD 0
    let c := if lLine = r then diag + 1 else max pj cp
    c :: lcsRowGo lLine rs prev.tail pj c

/-- The next LCS table row from the previous one (column 0 is always 0). -/
def lcsNextRow (prevRow : List Nat) (lLine : String) (R : List String) : List Nat :=
  0 :: lcsRowGo lLine R prevRow.tail (prevRow.headD 0) 0

/-- All LCS table rows from a given starting row onwards. -/
def lcsRowsFrom (R : List String) : List Nat → List String → List (List Nat)
  | row, [] => [row]
  | row, l :: ls => row :: lcsRowsFrom R (lcsNextRow row l R) ls

/-- The LCS table of computeLineDiff: row i, column j holds the LCS length
of the first i left lines and the first j right lines. -/
def lcsTable (L R : List String) : List (List Nat) :=
  lcsRowsFrom R (List.replicate (R.length + 1) 0) L

/-- Table entry lookup lcs[i][j]. -/
def lcsGet (L R : List String) (i j : Nat) : Nat :=
  ((lcsTable L R).getD i []).getD j 0

/-- The standard LCS length recurrence (spec side, section 8 of the spec):
lcs(i, j) = lcs(i-1, j-1) + 1 when the i-th left and j-th right lines are
equal, else max(lcs(i-1, j), lcs(i, j-1)); 0 at the borders.  This is the
same recurrence the source's table fill implements. -/
def lcsFn (L R : List String) : Nat → Nat → Nat
  | 0, _ => 0
  | _ + 1, 0 => 0
  | i + 1, j + 1 =>
    if L.getD i "" = R.getD j "" then lcsFn L R i j + 1
    else max (lcsFn L R i (j + 1)) (lcsFn L R (i + 1) j)
termination_by i j => i + j

/-- The backtracking loop of computeLineDiff, from (i, j) down to (0, 0):
equal lines become unchanged records, otherwise a deletion is preferred when
lcs[i-1][j] >= lcs[i][j-1], else an addition.  The source builds the list by
unshift while walking backwards; the recursion appends at the tail, which
yields the same forward-ordered list.  The line-number counters of the
source always equal i and j respectively.  One fuel unit is consumed per
emitted record, so fuel i + j dominates the loop. -/
def diffBacktrack (L R : List String) : Nat → Nat → Nat → List DiffLine × DiffStats
  | 0, _, _ => ([], ⟨0, 0, 0, 0⟩)
  | fuel + 1, i, j =>
    if i = 0 ∧ j = 0 then ([], ⟨0, 0, 0, 0⟩)
    else if 0 < i ∧ 0 < j ∧ L.getD (i - 1) "" = R.getD (j - 1) "" then
      let r := diffBacktrack L R fuel (i - 1) (j - 1)
      (r.1 ++ [⟨L.getD (i - 1) "", R.getD (j - 1) "", (i : Int), (j : Int), .unchanged, none⟩],
       { r.2 with unchanged := r.2.unchanged + 1 })
    else if 0 < i ∧ (j = 0 ∨ lcsGet L R i (j - 1) ≤ lcsGet L R (i - 1) j) then
      let r := diffBacktrack L R fuel (i - 1) j
      (r.1 ++ [⟨L.getD (i - 1) "", "", (i : Int), -1, .removed, none⟩],
       { r.2 with deletions := r.2.deletions + 1 })
    else
      let r := diffBacktrack L R fuel i (j - 1)
      (r.1 ++ [⟨"", R.getD (j - 1) "", -1, (j : Int), .added, none⟩],
       { r.2 with additions := r.2.additions + 1 })

/-- calculateSimilarity: 1 - levenshtein(s1, s2) / max(len1, len2), and 1
for two empty strings. -/
def calculateSimilarity (s1 s2 : String) : ℚ :=
  let maxLen := max s1.data.length s2.data.length
  if maxLen = 0 then 1
  else 1 - (lev s1.data s2.data : ℚ) / (maxLen : ℚ)

/-- enhanceWithModifications: scan for a removed record immediately followed
by an added record; when their similarity exceeds 0.3 merge them into one
modified record and adjust the stats, otherwise keep scanning from the next
record. -/
def enhanceWithModifications : List DiffLine → DiffStats → List DiffLine × DiffStats
  | [], st => ([], st)
  | [d], st => ([d], st)
  | d1 :: d2 :: rest, st =>
    if d1.type = .removed ∧ d2.type = .added then
      let sim := calculateSimilarity d1.leftLine d2.rightLine
      if (3 : ℚ) / 10 < sim then
        let r := enhanceWithModifications rest
          { st with modifications := st.modifications + 1,
                    deletions := st.deletions - 1,
                    additions := st.additions - 1 }
        (⟨d1.leftLine, d2.rightLine, d1.leftLineNumber, d2.rightLineNumber,
          .modified, some sim⟩ :: r.1, r.2)
      else
        let r := enhanceWithModifications (d2 :: rest) st
        (d1 :: r.1, r.2)
    else
      let r := enhanceWithModifications (d2 :: rest) st
      (d1 :: r.1, r.2)

/-- computeLineDiff: split, LCS backtrack, modification post-process. -/
def computeLineDiff (left right : String) : DiffResult :=
  let L := splitLines left
  let R := splitLines right
  let r := diffBacktrack L R (L.length + R.length + 1) L.length R.length
  let e := enhanceWithModifications r.1 r.2
  ⟨e.1, e.2⟩

/-- The left-hand trace of a diff: the leftLine fields of the records that
consumed a left line (unchanged, removed, modified), in output order. -/
def leftTrace (ds : List DiffLine) : List String :=
  (ds.filter (fun d => d.type = .unchanged ∨ d.type = .removed ∨ d.type = .modified)).map
    (fun d => d.leftLine)

/-- The right-hand trace of a diff: the rightLine fields of the records that
consumed a right line (unchanged, added, modified), in output order. -/
def rightTrace (ds : List DiffLine) : List String :=
  (ds.filter (fun d => d.type = .unchanged ∨ d.type = .added ∨ d.type = .modified)).map
    (fun d => d.rightLine)

/-- Well-formedness of a trie node as maintained by JavaScript Map children:
the child keys are pairwise distinct, recursively.  Every trie state the
source can reach satisfies this; it is an explicit hypothesis where the
association-list model would otherwise admit duplicate keys. -/
inductive WFNode : TNode → Prop where
  | mk : ∀ (children : List (Char × TNode)) (e : Bool) (f : Nat) (ws : List String),
      (children.map (fun x => x.1)).Nodup →
      (∀ ce ∈ children, WFNode ce.2) →
      WFNode (.mk children e f ws)

/-! ## Basic lemmas about the shared Levenshtein distance -/

theorem lev_nil_left (b : List Char) : lev [] b = b.length := rfl

theorem lev_nil_right (a : List Char) : lev a [] = a.length := by
  induction a with
  | nil => rfl
  | cons x a ih =>
    show levCons x (lev a) [] = a.length + 1
    simp [levCons, ih]

theorem lev_cons_nil (x : Char) (a : List Char) : lev (x :: a) [] = a.length + 1 := by
  rw [lev_nil_right]; rfl

theorem lev_cons_cons (x y : Char) (a b : List Char) :
    lev (x :: a) (y :: b) =
      if x = y then lev a b
      else 1 + Nat.min (lev a (y :: b)) (Nat.min (lev (x :: a) b) (lev a b)) := rfl

theorem lev_eq_zero_iff (a b : List Char) : lev a b = 0 ↔ a = b := by
  induction a generalizing b with
  | nil =>
    cases b with
    | nil => simp [lev]
    | cons y b => simp [lev]
  | cons x a ih =>
    cases b with
    | nil => simp [lev_cons_nil]
    | cons y b =>
      rw [lev_cons_cons]
      by_cases hxy : x = y
      · subst hxy
        simp only [if_pos rfl, eq_self_iff_true, if_true]
        rw [ih]
        constructor
        · intro h; rw [h]
        · intro h; injection h
      · simp [hxy]

/-! ## Claim C1: cross-algorithm equivalence of KMP and Boyer-Moore -/

/-- Claim C1 (code bug): the claim states that for every pattern and text,
case-sensitive KMPMatcher.findAll and BoyerMooreMatcher.findAll agree with
the naive substring scan.  KMP agrees with the naive scan on the input
below, but Boyer-Moore misses the occurrence of "ab" at offset 1 of "aab":
its shift reads the bad-character table as badChar.get(c) or -1, and since
the last index of the mismatching character a in "ab" is the falsy value 0,
the table reports -1 as if a were absent, over-shifting past the match. -/
theorem C1_boyer_moore_misses_match :
    kmpFindAll true "ab" "aab" = [1] ∧
    naivePositions "ab".data "aab".data = [1] ∧
    bmFindAll true "ab" "aab" = [] := by
  refine ⟨by decide, by decide, by decide⟩

/-! ## Claim C4: Aho-Corasick reports all (position, patternIndex) pairs -/

/-- Claim C4 (code bug): buildFailureLinks assigns output lists only to
nodes of depth at least 2 (children of dequeued nodes); the depth-1 children
of the root get their failure link in the initialisation loop but never an
output list, so a single-character pattern is never reported: with patterns
["a"] over text "a" the automaton returns no matches although the naive scan
finds the occurrence at offset 0.  On the spec's own scenario (patterns
["he", "she", "his"] over "ahishers", all of depth at least 2) the automaton
does report every literal occurrence: his at 1, he at 4, she at 3. -/
theorem C4_aho_corasick_drops_single_char_patterns :
    acFindAllMatches ["a".data] "a".data = [] ∧
    naivePositions "a".data "a".data = [0] ∧
    acFindAllMatches ["he".data, "she".data, "his".data] "ahishers".data =
      [("his".data, 1, 2), ("he".data, 4, 0), ("she".data, 3, 1)] := by
  refine ⟨by decide, by decide, by decide⟩

/-! ## Claim C9: the concrete diff scenario -/

/-- Claim C9 (counterexample): the claim asserts that diffing "a\nb\nc"
against "a\nx\nc" yields exactly three records with one modified record of
similarity about 0.0.  In the code, similarity("b", "x") = 0 does not exceed
the 0.3 merge threshold (and the backtrack emits the added record before the
removed one, while the merge scan requires removed immediately followed by
added), so no modified record is produced. -/
theorem C9_no_modified_record :
    ¬((computeLineDiff "a\nb\nc" "a\nx\nc").diffLines.length = 3 ∧
      (computeLineDiff "a\nb\nc" "a\nx\nc").stats.modifications = 1) := by
  decide

/-- Claim C9 (amended): computeLineDiff on left "a\nb\nc" and right
"a\nx\nc" returns four records, unchanged("a"), added("x"), removed("b"),
unchanged("c"), in that order, with stats of 1 addition, 1 deletion,
0 modifications and 2 unchanged lines. -/
theorem C9_amended_eval :
    computeLineDiff "a\nb\nc" "a\nx\nc" =
      ⟨[⟨"a", "a", 1, 1, .unchanged, none⟩,
        ⟨"", "x", -1, 2, .added, none⟩,
        ⟨"b", "", 2, -1, .removed, none⟩,
        ⟨"c", "c", 3, 3, .unchanged, none⟩],
       ⟨1, 1, 0, 2⟩⟩ := by
  decide

/-! ## Claim C8: degenerate inputs give empty results -/

theorem getD_set_le (arr : List Nat) (i v : Nat) (hv : v ≤ i)
    (h : ∀ k, arr.getD k 0 ≤ k) : ∀ k, (arr.set i v).getD k 0 ≤ k := by
  intro k
  rw [List.getD_eq_getElem?_getD, List.getElem?_set]
  by_cases hik : i = k
  · subst hik
    by_cases hl : i < arr.length
    · simp [hl, hv]
    · simp [hl]
  · rw [if_neg hik, ← List.getD_eq_getElem?_getD]
    exact h k

theorem lpsLoop_getD_le (p : List Char) :
    ∀ (fuel : Nat) (arr : List Nat) (len i : Nat),
      (∀ k, arr.getD k 0 ≤ k) → len < i →
      ∀ k, (lpsLoop p fuel arr len i).getD k 0 ≤ k := by
  intro fuel
  induction fuel with
  | zero => intro arr len i h _ k; exact h k
  | succ fuel ih =>
    intro arr len i h hlen k
    rw [lpsLoop]
    by_cases hi : i < p.length
    · rw [if_pos hi]
      by_cases hm : p[i]? = p[len]?
      · rw [if_pos hm]
        exact ih _ _ _ (getD_set_le arr i (len + 1) (by omega) h) (by omega) k
      · rw [if_neg hm]
        by_cases hz : len ≠ 0
        · rw [if_pos hz]
          exact ih _ _ _ h (by have := h (len - 1); omega) k
        · rw [if_neg hz]
          exact ih _ _ _ (getD_set_le arr i 0 (by omega) h) (by omega) k
    · rw [if_neg hi]
      exact h k

theorem computeLPS_getD_le (p : List Char) : ∀ k, (computeLPS p).getD k 0 ≤ k := by
  intro k
  rw [computeLPS]
  by_cases hp : p.length = 0
  · simp [hp]
  · rw [if_neg hp]
    refine lpsLoop_getD_le p _ _ _ _ ?_ (by omega) k
    intro k'
    rw [List.getD_eq_getElem?_getD, List.getElem?_replicate]
    by_cases hk : k' < p.length
    · simp [hk]
    · simp [hk]

theorem kmpLoop_eq_nil (p t : List Char) (lps : List Nat)
    (hlps : ∀ k, lps.getD k 0 ≤ k) (hlen : t.length < p.length) :
    ∀ (fuel i j : Nat), j ≤ i → kmpLoop p t lps fuel i j = [] := by
  intro fuel
  induction fuel with
  | zero => intro i j _; rfl
  | succ fuel ih =>
    intro i j hji
    rw [kmpLoop]
    by_cases hi : i < t.length
    · rw [if_pos hi]
      by_cases hm : p[j]? = t[i]?
      · simp only [if_pos hm]
        have hj1 : ¬(j + 1 = p.length) := by omega
        rw [if_neg hj1]
        by_cases hc : i + 1 < t.length ∧ p[j + 1]? ≠ t[i + 1]?
        · rw [if_pos hc]
          have : ¬(j + 1 = 0) := by omega
          rw [if_pos this]
          exact ih (i + 1) _ (by have := hlps (j + 1 - 1); omega)
        · rw [if_neg hc]
          exact ih (i + 1) (j + 1) (by omega)
      · simp only [if_neg hm]
        have hj1 : ¬(j = p.length) := by omega
        rw [if_neg hj1]
        have hc : i < t.length ∧ p[j]? ≠ t[i]? := ⟨hi, hm⟩
        rw [if_pos hc]
        by_cases hz : j ≠ 0
        · rw [if_pos hz]
          exact ih i _ (by have := hlps (j - 1); omega)
        · rw [if_neg hz]
          exact ih (i + 1) j (by omega)
    · rw [if_neg hi]

theorem kmpFirstLoop_eq_neg_one (p t : List Char) (lps : List Nat)
    (hlps : ∀ k, lps.getD k 0 ≤ k) (hlen : t.length < p.length) :
    ∀ (fuel i j : Nat), j ≤ i → kmpFirstLoop p t lps fuel i j = -1 := by
  intro fuel
  induction fuel with
  | zero => intro i j _; rfl
  | succ fuel ih =>
    intro i j hji
    rw [kmpFirstLoop]
    by_cases hi : i < t.length
    · rw [if_pos hi]
      by_cases hm : p[j]? = t[i]?
      · simp only [if_pos hm]
        have hj1 : ¬(j + 1 = p.length) := by omega
        rw [if_neg hj1]
        by_cases hc : i + 1 < t.length ∧ p[j + 1]? ≠ t[i + 1]?
        · rw [if_pos hc]
          have : ¬(j + 1 = 0) := by omega
          rw [if_pos this]
          exact ih (i + 1) _ (by have := hlps (j + 1 - 1); omega)
        · rw [if_neg hc]
          exact ih (i + 1) (j + 1) (by omega)
      · simp only [if_neg hm]
        have hj1 : ¬(j = p.length) := by omega
        rw [if_neg hj1]
        have hc : i < t.length ∧ p[j]? ≠ t[i]? := ⟨hi, hm⟩
        rw [if_pos hc]
        by_cases hz : j ≠ 0
        · rw [if_pos hz]
          exact ih i _ (by have := hlps (j - 1); omega)
        · rw [if_neg hz]
          exact ih (i + 1) j (by omega)
    · rw [if_neg hi]

theorem bmLoop_eq_nil_of_long (p t : List Char) (bc : List (Char × Nat))
    (gs : List Nat) (hlen : t.length < p.length) (fuel : Nat) :
    bmLoop p t bc gs (fuel + 1) 0 = [] := by
  rw [bmLoop]
  have : ¬((0 : Nat) : Int) ≤ (t.length : Int) - (p.length : Int) := by
    push_cast
    omega
  rw [if_neg this]

theorem bmFirstLoop_eq_neg_one_of_long (p t : List Char) (bc : List (Char × Nat))
    (gs : List Nat) (hlen : t.length < p.length) (fuel : Nat) :
    bmFirstLoop p t bc gs (fuel + 1) 0 = -1 := by
  rw [bmFirstLoop]
  have : ¬((0 : Nat) : Int) ≤ (t.length : Int) - (p.length : Int) := by
    push_cast
    omega
  rw [if_neg this]

/-- Claim C8 (confirmed): for an empty pattern, a pattern longer than the
text, or an empty text, findAll of both KMPMatcher and BoyerMooreMatcher
returns the empty list and findFirst returns the -1 sentinel, for either
case-sensitivity mode; the embedded functions are total, so none of these
calls can fail. -/
theorem C8_degenerate_inputs (cs : Bool) (pat text : String)
    (h : pat.data.length = 0 ∨ text.data.length < pat.data.length ∨
      text.data.length = 0) :
    kmpFindAll cs pat text = [] ∧ kmpFindFirst cs pat text = -1 ∧
    bmFindAll cs pat text = [] ∧ bmFindFirst cs pat text = -1 := by
  have hplen : (if cs then pat.data else (jsToLower pat).data).length = pat.data.length := by
    cases cs <;> simp [jsToLower]
  have htlen : (if cs then text.data else (jsToLower text).data).length = text.data.length := by
    cases cs <;> simp [jsToLower]
  by_cases hg : text.data.length = 0 ∨
      (if cs then pat.data else (jsToLower pat).data).length = 0
  · refine ⟨?_, ?_, ?_, ?_⟩ <;>
      [rw [kmpFindAll]; rw [kmpFindFirst]; rw [bmFindAll]; rw [bmFindFirst]] <;>
      rw [if_pos hg]
  · have hlt : text.data.length < pat.data.length := by
      rw [hplen] at hg
      rcases h with h | h | h
      · exact absurd (Or.inr h) hg
      · exact h
      · exact absurd (Or.inl h) hg
    refine ⟨?_, ?_, ?_, ?_⟩
    · rw [kmpFindAll, if_neg hg]
      exact kmpLoop_eq_nil _ _ _ (computeLPS_getD_le _) (by rw [hplen, htlen]; exact hlt) _ 0 0 le_rfl
    · rw [kmpFindFirst, if_neg hg]
      exact kmpFirstLoop_eq_neg_one _ _ _ (computeLPS_getD_le _) (by rw [hplen, htlen]; exact hlt) _ 0 0 le_rfl
    · rw [bmFindAll, if_neg hg]
      exact bmLoop_eq_nil_of_long _ _ _ _ (by rw [hplen, htlen]; exact hlt) _
    · rw [bmFindFirst, if_neg hg]
      exact bmFirstLoop_eq_neg_one_of_long _ _ _ _ (by rw [hplen, htlen]; exact hlt) _

/-- Witness for claim C8 at the concrete input pattern "ab", text "a"
(pattern longer than text), case-sensitive mode. -/
theorem C8_degenerate_inputs_witness :
    ("a".data.length < "ab".data.length) ∧
    (kmpFindAll true "ab" "a" = [] ∧ kmpFindFirst true "ab" "a" = -1 ∧
     bmFindAll true "ab" "a" = [] ∧ bmFindFirst true "ab" "a" = -1) :=
  ⟨by decide, C8_degenerate_inputs true "ab" "a" (Or.inr (Or.inl (by decide)))⟩

/-! ## Split and join round trip -/

@[simp]
theorem data_mk (l : List Char) : (String.mk l).data = l := rfl

theorem splitChars_ne_nil (cs : List Char) : splitChars cs ≠ [] := by
  cases cs with
  | nil => simp [splitChars]
  | cons c rest =>
    rw [splitChars]
    by_cases h : c = '\n'
    · rw [if_pos h]; simp
    · rw [if_neg h]; simp

theorem joinChars_splitChars (cs : List Char) : joinChars (splitChars cs) = cs := by
  induction cs with
  | nil => rfl
  | cons c rest ih =>
    obtain ⟨x, xs, hx⟩ : ∃ x xs, splitChars rest = x :: xs := by
      cases hsp : splitChars rest with
      | nil => exact absurd hsp (splitChars_ne_nil rest)
      | cons x xs => exact ⟨x, xs, rfl⟩
    rw [hx] at ih
    rw [splitChars]
    by_cases h : c = '\n'
    · subst h
      rw [if_pos rfl, hx]
      show joinChars ([] :: x :: xs) = '\n' :: rest
      rw [show joinChars ([] :: x :: xs) = [] ++ '\n' :: joinChars (x :: xs) from rfl]
      rw [ih]
      rfl
    · rw [if_neg h, hx]
      show joinChars ((c :: x) :: xs) = c :: rest
      cases xs with
      | nil =>
        show c :: x = c :: rest
        rw [show joinChars [x] = x from rfl] at ih
        rw [ih]
      | cons x2 xs2 =>
        rw [show joinChars ((c :: x) :: x2 :: xs2) =
          (c :: x) ++ '\n' :: joinChars (x2 :: xs2) from rfl]
        rw [show joinChars (x :: x2 :: xs2) = x ++ '\n' :: joinChars (x2 :: xs2) from rfl] at ih
        simpa using ih

theorem joinWithNewline_splitLines (s : String) : joinWithNewline (splitLines s) = s := by
  rw [joinWithNewline, splitLines, List.map_map]
  have hid : String.data ∘ String.mk = id := funext (fun _ => rfl)
  rw [hid, List.map_id, joinChars_splitChars]

theorem take_push (L : List String) (i : Nat) (h : i < L.length) :
    L.take (i + 1) = L.take i ++ [L.getD i ""] := by
  rw [List.take_succ]
  congr 1
  rw [List.getElem?_eq_getElem h]
  rw [List.getD_eq_getElem?_getD, List.getElem?_eq_getElem h]
  rfl

/-! ## Trace preservation through the diff pipeline -/

theorem leftTrace_append (a b : List DiffLine) :
    leftTrace (a ++ b) = leftTrace a ++ leftTrace b := by
  simp [leftTrace]

theorem rightTrace_append (a b : List DiffLine) :
    rightTrace (a ++ b) = rightTrace a ++ rightTrace b := by
  simp [rightTrace]

theorem diffBacktrack_traces (L R : List String) :
    ∀ (fuel i j : Nat), i + j ≤ fuel → i ≤ L.length → j ≤ R.length →
      leftTrace (diffBacktrack L R fuel i j).1 = L.take i ∧
      rightTrace (diffBacktrack L R fuel i j).1 = R.take j := by
  intro fuel
  induction fuel with
  | zero =>
    intro i j hf hi hj
    have hi0 : i = 0 := by omega
    have hj0 : j = 0 := by omega
    subst hi0; subst hj0
    simp [diffBacktrack, leftTrace, rightTrace]
  | succ fuel ih =>
    intro i j hf hi hj
    rw [diffBacktrack]
    by_cases h0 : i = 0 ∧ j = 0
    · rw [if_pos h0]
      obtain ⟨hi0, hj0⟩ := h0
      subst hi0; subst hj0
      simp [leftTrace, rightTrace]
    · rw [if_neg h0]
      by_cases hu : 0 < i ∧ 0 < j ∧ L.getD (i - 1) "" = R.getD (j - 1) ""
      · rw [if_pos hu]
        obtain ⟨hr1, hr2⟩ := ih (i - 1) (j - 1) (by omega) (by omega) (by omega)
        refine ⟨?_, ?_⟩
        · rw [leftTrace_append, hr1]
          have hst : leftTrace [⟨L.getD (i - 1) "", R.getD (j - 1) "",
              (i : Int), (j : Int), .unchanged, none⟩] = [L.getD (i - 1) ""] := by
            simp [leftTrace]
          rw [hst, show i = i - 1 + 1 by omega, take_push L (i - 1) (by omega)]
          try simp only [Nat.add_sub_cancel]
        · rw [rightTrace_append, hr2]
          have hst : rightTrace [⟨L.getD (i - 1) "", R.getD (j - 1) "",
              (i : Int), (j : Int), .unchanged, none⟩] = [R.getD (j - 1) ""] := by
            simp [rightTrace]
          rw [hst, show j = j - 1 + 1 by omega, take_push R (j - 1) (by omega)]
          try simp only [Nat.add_sub_cancel]
      · rw [if_neg hu]
        by_cases hd : 0 < i ∧ (j = 0 ∨ lcsGet L R i (j - 1) ≤ lcsGet L R (i - 1) j)
        · rw [if_pos hd]
          obtain ⟨hr1, hr2⟩ := ih (i - 1) j (by omega) (by omega) hj
          refine ⟨?_, ?_⟩
          · rw [leftTrace_append, hr1]
            have hst : leftTrace [⟨L.getD (i - 1) "", "",
                (i : Int), -1, .removed, none⟩] = [L.getD (i - 1) ""] := by
              simp [leftTrace]
            rw [hst, show i = i - 1 + 1 by omega, take_push L (i - 1) (by omega)]
            try simp only [Nat.add_sub_cancel]
          try simp only [Nat.add_sub_cancel]
          · rw [rightTrace_append, hr2]
            have hst : rightTrace [⟨L.getD (i - 1) "", "",
                (i : Int), -1, .removed, none⟩] = [] := by
              simp [rightTrace]
            rw [hst, List.append_nil]
        · rw [if_neg hd]
          have hj0 : 0 < j := by
            rcases Nat.eq_zero_or_pos j with hj0 | hj0
            · exfalso
              have hi0 : 0 < i := by omega
              exact hd ⟨hi0, Or.inl hj0⟩
            · exact hj0
          obtain ⟨hr1, hr2⟩ := ih i (j - 1) (by omega) hi (by omega)
          refine ⟨?_, ?_⟩
          · rw [leftTrace_append, hr1]
            have hst : leftTrace [⟨"", R.getD (j - 1) "",
                -1, (j : Int), .added, none⟩] = [] := by
              simp [leftTrace]
            rw [hst, List.append_nil]
          · rw [rightTrace_append, hr2]
            have hst : rightTrace [⟨"", R.getD (j - 1) "",
                -1, (j : Int), .added, none⟩] = [R.getD (j - 1) ""] := by
              simp [rightTrace]
            rw [hst, show j = j - 1 + 1 by omega, take_push R (j - 1) (by omega)]
            try simp only [Nat.add_sub_cancel]
          try simp only [Nat.add_sub_cancel]

theorem leftTrace_cons (d : DiffLine) (ds : List DiffLine) :
    leftTrace (d :: ds) =
      (if d.type = .unchanged ∨ d.type = .removed ∨ d.type = .modified
        then [d.leftLine] else []) ++ leftTrace ds := by
  by_cases h : d.type = .unchanged ∨ d.type = .removed ∨ d.type = .modified
  · simp [leftTrace, List.filter_cons, h]
  · simp [leftTrace, List.filter_cons, h]

theorem rightTrace_cons (d : DiffLine) (ds : List DiffLine) :
    rightTrace (d :: ds) =
      (if d.type = .unchanged ∨ d.type = .added ∨ d.type = .modified
        then [d.rightLine] else []) ++ rightTrace ds := by
  by_cases h : d.type = .unchanged ∨ d.type = .added ∨ d.type = .modified
  · simp [rightTrace, List.filter_cons, h]
  · simp [rightTrace, List.filter_cons, h]

theorem enhance_traces_bounded :
    ∀ (n : Nat) (ds : List DiffLine), ds.length ≤ n → ∀ (st : DiffStats),
      leftTrace (enhanceWithModifications ds st).1 = leftTrace ds ∧
      rightTrace (enhanceWithModifications ds st).1 = rightTrace ds := by
  intro n
  induction n with
  | zero =>
    intro ds hlen st
    have : ds = [] := List.length_eq_zero.mp (by omega)
    subst this
    exact ⟨rfl, rfl⟩
  | succ n ih =>
    intro ds hlen st
    match ds with
    | [] => exact ⟨rfl, rfl⟩
    | [d] => exact ⟨rfl, rfl⟩
    | d1 :: d2 :: rest =>
      rw [enhanceWithModifications]
      by_cases hra : d1.type = .removed ∧ d2.type = .added
      · rw [if_pos hra]
        by_cases hsim : (3 : ℚ) / 10 < calculateSimilarity d1.leftLine d2.rightLine
        · rw [if_pos hsim]
          obtain ⟨h1, h2⟩ := ih rest (by simp at hlen; omega)
            { st with modifications := st.modifications + 1,
                      deletions := st.deletions - 1,
                      additions := st.additions - 1 }
          constructor
          · simp only [leftTrace_cons, h1, hra.1, hra.2]
            simp
          · simp only [rightTrace_cons, h2, hra.1, hra.2]
            simp
        · rw [if_neg hsim]
          obtain ⟨h1, h2⟩ := ih (d2 :: rest) (by simp at hlen ⊢; omega) st
          constructor
          · simp only [leftTrace_cons, h1]
          · simp only [rightTrace_cons, h2]
      · rw [if_neg hra]
        obtain ⟨h1, h2⟩ := ih (d2 :: rest) (by simp at hlen ⊢; omega) st
        constructor
        · simp only [leftTrace_cons, h1]
        · simp only [rightTrace_cons, h2]

/-- Claim C2 (confirmed): the diff is a round trip.  Joining the leftLine
fields of the unchanged, removed and modified records with newlines
reconstructs the left input, and joining the rightLine fields of the
unchanged, added and modified records reconstructs the right input; every
line of both inputs therefore appears in exactly one output record. -/
theorem C2_diff_round_trip (l r : String) :
    joinWithNewline (leftTrace (computeLineDiff l r).diffLines) = l ∧
    joinWithNewline (rightTrace (computeLineDiff l r).diffLines) = r := by
  rw [computeLineDiff]
  obtain ⟨hb1, hb2⟩ := diffBacktrack_traces (splitLines l) (splitLines r)
    ((splitLines l).length + (splitLines r).length + 1)
    (splitLines l).length (splitLines r).length (by omega) le_rfl le_rfl
  obtain ⟨he1, he2⟩ := enhance_traces_bounded
    (diffBacktrack (splitLines l) (splitLines r)
      ((splitLines l).length + (splitLines r).length + 1)
      (splitLines l).length (splitLines r).length).1.length
    _ le_rfl
    (diffBacktrack (splitLines l) (splitLines r)
      ((splitLines l).length + (splitLines r).length + 1)
      (splitLines l).length (splitLines r).length).2
  constructor
  · show joinWithNewline (leftTrace _) = l
    rw [he1, hb1, List.take_length, joinWithNewline_splitLines]
  · show joinWithNewline (rightTrace _) = r
    rw [he2, hb2, List.take_length, joinWithNewline_splitLines]

/-! ## The LCS table agrees with the standard recurrence -/

theorem lcsFn_zero_left (L R : List String) (j : Nat) : lcsFn L R 0 j = 0 := by
  rw [lcsFn]

theorem lcsFn_succ_zero (L R : List String) (i : Nat) : lcsFn L R (i + 1) 0 = 0 := by
  rw [lcsFn]

theorem lcsFn_succ_succ (L R : List String) (i j : Nat) :
    lcsFn L R (i + 1) (j + 1) =
      if L.getD i "" = R.getD j "" then lcsFn L R i j + 1
      else max (lcsFn L R i (j + 1)) (lcsFn L R (i + 1) j) := by
  rw [lcsFn]

theorem lcsFn_any_zero (L R : List String) (i : Nat) : lcsFn L R i 0 = 0 := by
  cases i with
  | zero => rw [lcsFn_zero_left]
  | succ i => rw [lcsFn_succ_zero]

theorem getD_tail (l : List Nat) (k : Nat) : l.tail.getD k 0 = l.getD (k + 1) 0 := by
  cases l with
  | nil => rfl
  | cons x xs => rfl

theorem headD_eq_getD (l : List Nat) : l.headD 0 = l.getD 0 0 := by
  cases l with
  | nil => rfl
  | cons x xs => rfl

theorem lcsRowGo_spec (L R : List String) (i : Nat) :
    ∀ (rs : List String) (j0 : Nat) (prev : List Nat) (diag cp : Nat),
      rs = R.drop j0 →
      (∀ k, j0 + 1 + k ≤ R.length → prev.getD k 0 = lcsFn L R i (j0 + 1 + k)) →
      diag = lcsFn L R i j0 → cp = lcsFn L R (i + 1) j0 →
      ∀ k, k < rs.length →
        (lcsRowGo (L.getD i "") rs prev diag cp).getD k 0 =
          lcsFn L R (i + 1) (j0 + 1 + k) := by
  intro rs
  induction rs with
  | nil =>
    intro j0 prev diag cp _ _ _ _ k hk
    simp at hk
  | cons r rs ih =>
    intro j0 prev diag cp hrs hprev hdiag hcp k hk
    have hj0R : j0 < R.length := by
      have hlen := congrArg List.length hrs
      rw [List.length_drop] at hlen
      simp at hlen
      omega
    have hr : r = R.getD j0 "" := by
      have h0 : (R.drop j0)[0]? = R[j0 + 0]? := List.getElem?_drop R j0 0
      rw [← hrs] at h0
      simp at h0
      rw [List.getD_eq_getElem?_getD, ← h0]
      rfl
    have hrs' : rs = R.drop (j0 + 1) := by
      have := List.tail_drop R j0
      rw [← hrs] at this
      simpa using this
    have hc : (if L.getD i "" = r then diag + 1 else max (prev.headD 0) cp) =
        lcsFn L R (i + 1) (j0 + 1) := by
      rw [lcsFn_succ_succ, hr, hdiag, hcp, headD_eq_getD,
        hprev 0 (by omega)]
    cases k with
    | zero =>
      rw [lcsRowGo]
      simp only [List.getD_cons_zero]
      simpa using hc
    | succ k' =>
      rw [lcsRowGo]
      simp only [List.getD_cons_succ]
      have := ih (j0 + 1) prev.tail (prev.headD 0)
        (if L.getD i "" = r then diag + 1 else max (prev.headD 0) cp)
        hrs'
        (by
          intro k hk'
          rw [getD_tail]
          rw [hprev (k + 1) (by omega)]
          congr 1
          omega)
        (by rw [headD_eq_getD, hprev 0 (by omega)])
        hc
        k' (by simpa using hk)
      rw [this]
      congr 1
      omega

theorem lcsNextRow_spec (L R : List String) (i : Nat) (row : List Nat)
    (hrow : ∀ j, j ≤ R.length → row.getD j 0 = lcsFn L R i j) :
    ∀ j, j ≤ R.length →
      (lcsNextRow row (L.getD i "") R).getD j 0 = lcsFn L R (i + 1) j := by
  intro j hj
  cases j with
  | zero =>
    rw [lcsNextRow]
    simp [lcsFn_succ_zero]
  | succ j' =>
    rw [lcsNextRow]
    simp only [List.getD_cons_succ]
    have := lcsRowGo_spec L R i R 0 row.tail (row.headD 0) 0
      (by simp)
      (by
        intro k hk
        rw [getD_tail]
        rw [hrow (k + 1) (by omega)]
        congr 1
        omega)
      (by rw [headD_eq_getD, hrow 0 (by omega)])
      (by rw [lcsFn_succ_zero])
      j' (by omega)
    rw [this]
    congr 1
    omega

theorem lcsRowsFrom_spec (L R : List String) :
    ∀ (ls : List String) (i0 : Nat) (row : List Nat),
      ls = L.drop i0 →
      (∀ j, j ≤ R.length → row.getD j 0 = lcsFn L R i0 j) →
      ∀ d, i0 + d ≤ L.length → ∀ j, j ≤ R.length →
        ((lcsRowsFrom R row ls).getD d []).getD j 0 = lcsFn L R (i0 + d) j := by
  intro ls
  induction ls with
  | nil =>
    intro i0 row hls hrow d hd j hj
    have hi0 : L.length ≤ i0 := by
      have hlen := congrArg List.length hls
      rw [List.length_drop] at hlen
      simp at hlen
      omega
    have hd0 : d = 0 := by omega
    subst hd0
    rw [lcsRowsFrom]
    simpa using hrow j hj
  | cons l ls ih =>
    intro i0 row hls hrow d hd j hj
    have hi0 : i0 < L.length := by
      have hlen := congrArg List.length hls
      rw [List.length_drop] at hlen
      simp at hlen
      omega
    have hl : l = L.getD i0 "" := by
      have h0 : (L.drop i0)[0]? = L[i0 + 0]? := List.getElem?_drop L i0 0
      rw [← hls] at h0
      simp at h0
      rw [List.getD_eq_getElem?_getD, ← h0]
      rfl
    have hls' : ls = L.drop (i0 + 1) := by
      have := List.tail_drop L i0
      rw [← hls] at this
      simpa using this
    cases d with
    | zero =>
      rw [lcsRowsFrom]
      simpa using hrow j hj
    | succ d' =>
      rw [lcsRowsFrom]
      simp only [List.getD_cons_succ]
      have := ih (i0 + 1) (lcsNextRow row l R) hls'
        (by
          intro j' hj'
          rw [hl]
          exact lcsNextRow_spec L R i0 row hrow j' hj')
        d' (by omega) j hj
      rw [this]
      congr 1
      omega

theorem replicate_getD_zero (n k : Nat) : (List.replicate n (0 : Nat)).getD k 0 = 0 := by
  rw [List.getD_eq_getElem?_getD, List.getElem?_replicate]
  by_cases h : k < n
  · simp [h]
  · simp [h]

theorem lcsGet_eq_lcsFn (L R : List String) (i j : Nat)
    (hi : i ≤ L.length) (hj : j ≤ R.length) : lcsGet L R i j = lcsFn L R i j := by
  rw [lcsGet, lcsTable]
  have := lcsRowsFrom_spec L R L 0 (List.replicate (R.length + 1) 0)
    (by simp)
    (by
      intro j' _
      rw [replicate_getD_zero, lcsFn_zero_left])
    i (by omega) j hj
  simpa using this

/-! ## The backtrack's unchanged count is the LCS length -/

theorem diffBacktrack_unchanged (L R : List String) :
    ∀ (fuel i j : Nat), i + j ≤ fuel → i ≤ L.length → j ≤ R.length →
      (diffBacktrack L R fuel i j).2.unchanged = (lcsFn L R i j : Int) := by
  intro fuel
  induction fuel with
  | zero =>
    intro i j hf hi hj
    have hi0 : i = 0 := by omega
    have hj0 : j = 0 := by omega
    subst hi0; subst hj0
    rw [lcsFn_zero_left]
    rfl
  | succ fuel ih =>
    intro i j hf hi hj
    rw [diffBacktrack]
    by_cases h0 : i = 0 ∧ j = 0
    · rw [if_pos h0]
      obtain ⟨hi0, hj0⟩ := h0
      subst hi0; subst hj0
      rw [lcsFn_zero_left]
      rfl
    · rw [if_neg h0]
      by_cases hu : 0 < i ∧ 0 < j ∧ L.getD (i - 1) "" = R.getD (j - 1) ""
      · rw [if_pos hu]
        obtain ⟨i', rfl⟩ : ∃ i', i = i' + 1 := ⟨i - 1, by omega⟩
        obtain ⟨j', rfl⟩ : ∃ j', j = j' + 1 := ⟨j - 1, by omega⟩
        simp only [Nat.add_sub_cancel] at hu ⊢
        show (diffBacktrack L R fuel i' j').2.unchanged + 1 = _
        rw [ih i' j' (by omega) (by omega) (by omega)]
        rw [lcsFn_succ_succ, if_pos hu.2.2]
        push_cast
        ring
      · rw [if_neg hu]
        by_cases hd : 0 < i ∧ (j = 0 ∨ lcsGet L R i (j - 1) ≤ lcsGet L R (i - 1) j)
        · rw [if_pos hd]
          obtain ⟨i', rfl⟩ : ∃ i', i = i' + 1 := ⟨i - 1, by omega⟩
          simp only [Nat.add_sub_cancel] at hd hu ⊢
          show (diffBacktrack L R fuel i' j).2.unchanged = _
          rw [ih i' j (by omega) (by omega) hj]
          congr 1
          rcases Nat.eq_zero_or_pos j with hj0 | hj0
          · subst hj0
            rw [lcsFn_any_zero, lcsFn_any_zero]
          · obtain ⟨j'', rfl⟩ : ∃ j'', j = j'' + 1 := ⟨j - 1, by omega⟩
            have hne : ¬(L.getD i' "" = R.getD j'' "") := by
              intro heq
              exact hu ⟨by omega, by omega, heq⟩
            have hle : lcsFn L R (i' + 1) j'' ≤ lcsFn L R i' (j'' + 1) := by
              have h1 := hd.2
              rcases h1 with h1 | h1
              · omega
              · simp only [Nat.add_sub_cancel] at h1
                rw [lcsGet_eq_lcsFn L R (i' + 1) j'' hi (by omega),
                  lcsGet_eq_lcsFn L R i' (j'' + 1) (by omega) hj] at h1
                exact h1
            rw [lcsFn_succ_succ, if_neg hne, Nat.max_eq_left hle]
        · rw [if_neg hd]
          have hj0 : 0 < j := by
            rcases Nat.eq_zero_or_pos j with hj0 | hj0
            · exfalso
              exact hd ⟨by omega, Or.inl hj0⟩
            · exact hj0
          obtain ⟨j', rfl⟩ : ∃ j', j = j' + 1 := ⟨j - 1, by omega⟩
          simp only [Nat.add_sub_cancel] at hd hu ⊢
          show (diffBacktrack L R fuel i j').2.unchanged = _
          rw [ih i j' (by omega) hi (by omega)]
          congr 1
          rcases Nat.eq_zero_or_pos i with hi0 | hi0
          · subst hi0
            rw [lcsFn_zero_left, lcsFn_zero_left]
          · obtain ⟨i'', rfl⟩ : ∃ i'', i = i'' + 1 := ⟨i - 1, by omega⟩
            simp only [Nat.add_sub_cancel] at hd hu
            have hne : ¬(L.getD i'' "" = R.getD j' "") := by
              intro heq
              exact hu ⟨by omega, by omega, heq⟩
            have hlt : lcsFn L R i'' (j' + 1) < lcsFn L R (i'' + 1) j' := by
              have h1 : ¬((j' + 1 = 0) ∨
                  lcsGet L R (i'' + 1) j' ≤ lcsGet L R i'' (j' + 1)) := by
                intro hc
                exact hd ⟨by omega, hc⟩
              push_neg at h1
              have h2 := h1.2
              rw [lcsGet_eq_lcsFn L R (i'' + 1) j' hi (by omega),
                lcsGet_eq_lcsFn L R i'' (j' + 1) (by omega) hj] at h2
              omega
            rw [lcsFn_succ_succ, if_neg hne, Nat.max_eq_right (Nat.le_of_lt hlt)]

theorem enhance_unchanged_bounded :
    ∀ (n : Nat) (ds : List DiffLine), ds.length ≤ n → ∀ (st : DiffStats),
      (enhanceWithModifications ds st).2.unchanged = st.unchanged := by
  intro n
  induction n with
  | zero =>
    intro ds hlen st
    have : ds = [] := List.length_eq_zero.mp (by omega)
    subst this
    rfl
  | succ n ih =>
    intro ds hlen st
    match ds with
    | [] => rfl
    | [d] => rfl
    | d1 :: d2 :: rest =>
      rw [enhanceWithModifications]
      by_cases hra : d1.type = .removed ∧ d2.type = .added
      · rw [if_pos hra]
        by_cases hsim : (3 : ℚ) / 10 < calculateSimilarity d1.leftLine d2.rightLine
        · rw [if_pos hsim]
          exact ih rest (by simp at hlen; omega) _
        · rw [if_neg hsim]
          exact ih (d2 :: rest) (by simp at hlen ⊢; omega) st
      · rw [if_neg hra]
        exact ih (d2 :: rest) (by simp at hlen ⊢; omega) st

/-- Claim C3 (confirmed): the unchanged count of computeLineDiff equals the
LCS length of the two line sequences as given by the standard recurrence
lcsFn (which is exactly the recurrence of the source's table fill), and the
modification-merge post-process never changes the unchanged count, so the
identity holds for the final returned stats. -/
theorem C3_unchanged_eq_lcs_length (l r : String) :
    (computeLineDiff l r).stats.unchanged =
      (lcsFn (splitLines l) (splitLines r)
        (splitLines l).length (splitLines r).length : Int) ∧
    ∀ (ds : List DiffLine) (st : DiffStats),
      (enhanceWithModifications ds st).2.unchanged = st.unchanged := by
  constructor
  · rw [computeLineDiff]
    have hb := diffBacktrack_unchanged (splitLines l) (splitLines r)
      ((splitLines l).length + (splitLines r).length + 1)
      (splitLines l).length (splitLines r).length (by omega) le_rfl le_rfl
    have he := enhance_unchanged_bounded
      (diffBacktrack (splitLines l) (splitLines r)
        ((splitLines l).length + (splitLines r).length + 1)
        (splitLines l).length (splitLines r).length).1.length
      _ le_rfl
      (diffBacktrack (splitLines l) (splitLines r)
        ((splitLines l).length + (splitLines r).length + 1)
        (splitLines l).length (splitLines r).length).2
    show (enhanceWithModifications _ _).2.unchanged = _
    rw [he, hb]
  · intro ds st
    exact enhance_unchanged_bounded ds.length ds le_rfl st

/-! ## Trie lemmas: insert, contains, remove -/

theorem mapGet_mapSet_self {α β : Type} [DecidableEq α] (l : List (α × β)) (c : α) (v : β) :
    mapGet (mapSet l c v) c = some v := by
  rw [mapSet]
  by_cases h : l.any (fun e => e.1 = c)
  · rw [if_pos h]
    induction l with
    | nil => simp at h
    | cons e l ih =>
      by_cases he : e.1 = c
      · simp only [List.map]
        rw [if_pos he]
        simp [mapGet, List.find?]
      · simp only [List.map]
        rw [if_neg he]
        have h' : l.any (fun e => e.1 = c) := by
          simp only [List.any_cons] at h
          rcases Bool.or_eq_true_iff.mp h with h | h
          · exact absurd (by simpa using h) he
          · exact h
        have := ih h'
        simp only [mapGet, List.find?] at this ⊢
        rw [show (decide (e.1 = c)) = false by simpa using he]
        exact this
  · rw [if_neg h]
    induction l with
    | nil => simp [mapGet, List.find?]
    | cons e l ih =>
      have he : ¬(e.1 = c) := by
        intro hc
        exact h (by simp [List.any_cons, hc])
      have h' : ¬(l.any (fun e => e.1 = c)) := by
        intro hc
        exact h (by simp [List.any_cons, hc])
      have := ih h'
      simp only [List.cons_append, mapGet, List.find?] at this ⊢
      rw [show (decide (e.1 = c)) = false by simpa using he]
      exact this

theorem mapGet_eraseChild_self (l : List (Char × TNode)) (c : Char) :
    mapGet (eraseChild l c) c = none := by
  induction l with
  | nil => rfl
  | cons e l ih =>
    rw [eraseChild, List.filter_cons]
    by_cases he : e.1 = c
    · rw [if_neg (by simpa using he)]
      exact ih
    · rw [if_pos (by simpa using he)]
      simp only [mapGet, List.find?]
      rw [show (decide (e.1 = c)) = false by simpa using he]
      exact ih

theorem findNode_insertPath (w : String) :
    ∀ (cs : List Char) (n : TNode),
      ∃ m, findNode (TNode.insertPath w n cs) cs = some m ∧
        m.isEndOfWord = true ∧ 1 ≤ m.frequency := by
  intro cs
  induction cs with
  | nil =>
    intro n
    refine ⟨_, rfl, rfl, ?_⟩
    show 1 ≤ n.frequency + 1
    omega
  | cons c rest ih =>
    intro n
    obtain ⟨m, hm, he, hf⟩ := ih ((mapGet n.children c).getD (.mk [] false 0 []))
    refine ⟨m, ?_, he, hf⟩
    rw [TNode.insertPath, findNode]
    show (match mapGet (mapSet n.children c _) c with
      | some child => findNode child rest
      | none => none) = some m
    rw [mapGet_mapSet_self]
    exact hm

theorem removeGo_of_found (w : String) :
    ∀ (cs : List Char) (n m : TNode),
      findNode n cs = some m → m.isEndOfWord = true →
      ∃ r, removeGo w n cs = some r := by
  intro cs
  induction cs with
  | nil =>
    intro n m hf he
    have hnm : n = m := by
      simpa [findNode] using hf
    subst hnm
    rw [removeGo, if_pos he]
    exact ⟨_, rfl⟩
  | cons c rest ih =>
    intro n m hf he
    rw [findNode] at hf
    cases hg : mapGet n.children c with
    | none => rw [hg] at hf; exact absurd hf (by simp)
    | some child =>
      rw [hg] at hf
      simp only at hf
      obtain ⟨r, hr⟩ := ih child m hf he
      rw [removeGo]
      simp only [hg, hr]
      cases r with
      | mk child1 dead =>
        cases dead with
        | true => exact ⟨_, by rw [if_pos rfl]⟩
        | false => exact ⟨_, by rw [if_neg (by simp)]⟩

theorem removeGo_not_end (w : String) :
    ∀ (cs : List Char) (n n' : TNode) (d : Bool),
      removeGo w n cs = some (n', d) →
      ∀ m, findNode n' cs = some m → m.isEndOfWord = false := by
  intro cs
  induction cs with
  | nil =>
    intro n n' d hr m hm
    rw [removeGo] at hr
    by_cases he : n.isEndOfWord
    · rw [if_pos he] at hr
      have hn' : TNode.mk n.children false (n.frequency - 1)
          (n.wordEndings.filter (fun x => x ≠ w)) = n' := by
        have := congrArg Prod.fst (Option.some.inj hr)
        simpa using this
      have hmn : n' = m := by
        simpa [findNode] using hm
      rw [← hmn, ← hn']
      rfl
    · rw [if_neg he] at hr
      exact absurd hr (by simp)
  | cons c rest ih =>
    intro n n' d hr m hm
    rw [removeGo] at hr
    cases hg : mapGet n.children c with
    | none =>
      rw [hg] at hr
      exact absurd hr (by simp)
    | some child =>
      rw [hg] at hr
      simp only at hr
      cases hrg : removeGo w child rest with
      | none =>
        rw [hrg] at hr
        exact absurd hr (by simp)
      | some r =>
        rw [hrg] at hr
        simp only at hr
        cases r with
        | mk child1 dead =>
          cases dead with
          | true =>
            rw [if_pos rfl] at hr
            have hn' : TNode.mk (eraseChild n.children c)
                n.isEndOfWord n.frequency n.wordEndings = n' := by
              have := congrArg Prod.fst (Option.some.inj hr)
              simpa using this
            rw [← hn', findNode] at hm
            have hnone : mapGet (TNode.mk (eraseChild n.children c)
                n.isEndOfWord n.frequency n.wordEndings).children c = none := by
              show mapGet (eraseChild n.children c) c = none
              exact mapGet_eraseChild_self n.children c
            rw [hnone] at hm
            exact absurd hm (by simp)
          | false =>
            rw [if_neg (by simp)] at hr
            have hn' : TNode.mk (mapSet n.children c child1)
                n.isEndOfWord n.frequency n.wordEndings = n' := by
              have := congrArg Prod.fst (Option.some.inj hr)
              simpa using this
            rw [← hn', findNode] at hm
            have hms : mapGet (TNode.mk (mapSet n.children c child1)
                n.isEndOfWord n.frequency n.wordEndings).children c = some child1 := by
              show mapGet (mapSet n.children c child1) c = some child1
              exact mapGet_mapSet_self n.children c child1
            rw [hms] at hm
            simp only at hm
            exact ih child child1 false hrg m hm

theorem removeGo_none_of_not_found (w : String) :
    ∀ (cs : List Char) (n : TNode),
      findNode n cs = none → removeGo w n cs = none := by
  intro cs
  induction cs with
  | nil =>
    intro n hf
    exact absurd hf (by simp [findNode])
  | cons c rest ih =>
    intro n hf
    rw [findNode] at hf
    rw [removeGo]
    cases hg : mapGet n.children c with
    | none => rfl
    | some child =>
      rw [hg] at hf
      simp only at hf ⊢
      rw [ih child hf]

theorem removeGo_none_of_not_end (w : String) :
    ∀ (cs : List Char) (n m : TNode),
      findNode n cs = some m → m.isEndOfWord = false →
      removeGo w n cs = none := by
  intro cs
  induction cs with
  | nil =>
    intro n m hf he
    have hnm : n = m := by
      simpa [findNode] using hf
    subst hnm
    rw [removeGo, if_neg (by simp [he])]
  | cons c rest ih =>
    intro n m hf he
    rw [findNode] at hf
    rw [removeGo]
    cases hg : mapGet n.children c with
    | none => rfl
    | some child =>
      rw [hg] at hf
      simp only at hf ⊢
      rw [ih child m hf he]

/-- Claim C6 (confirmed): for every trie state and every word that is
non-empty after normalisation, immediately after insert the word is
contained with frequency at least 1, and if the trie contained the word,
immediately after remove it is no longer contained. -/
theorem C6_insert_then_contains_remove_then_absent (t : Trie) (w : String)
    (hw : (normalize w).length ≠ 0) :
    (Trie.contains (Trie.insert t w) w = true ∧
     1 ≤ Trie.getFrequency (Trie.insert t w) w) ∧
    (Trie.contains t w = true → Trie.contains (Trie.remove t w).2 w = false) := by
  obtain ⟨m, hm, he, hf⟩ := findNode_insertPath (normalize w) (normalize w).data t.root
  have hroot : (Trie.insert t w).root =
      TNode.insertPath (normalize w) t.root (normalize w).data := by
    rw [Trie.insert]
    simp only [if_neg hw]
  constructor
  · constructor
    · rw [Trie.contains, if_neg hw, hroot, hm]
      exact he
    · rw [Trie.getFrequency, if_neg hw, hroot, hm]
      simpa [he] using hf
  · intro hc
    rw [Trie.contains, if_neg hw] at hc
    cases hfind : findNode t.root (normalize w).data with
    | none => rw [hfind] at hc; exact absurd hc (by simp)
    | some m0 =>
      rw [hfind] at hc
      obtain ⟨r, hr⟩ := removeGo_of_found (normalize w) (normalize w).data t.root m0 hfind hc
      rw [Trie.remove, if_neg hw, hr]
      cases r with
      | mk root1 dead =>
        show Trie.contains ⟨root1, t.wordCount - 1, t.maxDepth⟩ w = false
        rw [Trie.contains, if_neg hw]
        cases hfind1 : findNode root1 (normalize w).data with
        | none => rfl
        | some m1 =>
          exact removeGo_not_end (normalize w) (normalize w).data t.root root1 dead hr m1 hfind1

/-- Witness for claim C6 at the concrete trie containing "ab" with the word
"ab": insertion makes it contained with positive frequency, and removal
erases it. -/
theorem C6_insert_then_contains_remove_then_absent_witness :
    (normalize "ab").length ≠ 0 ∧
    ((Trie.contains (Trie.insert (Trie.insert emptyTrie "ab") "ab") "ab" = true ∧
      1 ≤ Trie.getFrequency (Trie.insert (Trie.insert emptyTrie "ab") "ab") "ab") ∧
     (Trie.contains (Trie.insert emptyTrie "ab") "ab" = true →
      Trie.contains (Trie.remove (Trie.insert emptyTrie "ab") "ab").2 "ab" = false)) :=
  ⟨by decide,
   C6_insert_then_contains_remove_then_absent (Trie.insert emptyTrie "ab") "ab" (by decide)⟩

/-- Claim C10 (confirmed): removing a word the trie does not contain (after
normalisation: empty, path missing, or reaching a non-terminal node) returns
false and leaves the trie completely unchanged, since the source mutates
nothing before both existence checks pass. -/
theorem C10_remove_absent_leaves_trie_unchanged (t : Trie) (w : String)
    (h : Trie.contains t w = false) :
    Trie.remove t w = (false, t) := by
  rw [Trie.remove]
  by_cases hw : (normalize w).length = 0
  · rw [if_pos hw]
  · rw [if_neg hw]
    rw [Trie.contains, if_neg hw] at h
    cases hfind : findNode t.root (normalize w).data with
    | none =>
      rw [removeGo_none_of_not_found (normalize w) (normalize w).data t.root hfind]
    | some m =>
      rw [hfind] at h
      rw [removeGo_none_of_not_end (normalize w) (normalize w).data t.root m hfind h]

/-- Witness for claim C10 at the empty trie and the absent word "zz". -/
theorem C10_remove_absent_leaves_trie_unchanged_witness :
    Trie.contains emptyTrie "zz" = false ∧
    Trie.remove emptyTrie "zz" = (false, emptyTrie) :=
  ⟨by decide, C10_remove_absent_leaves_trie_unchanged emptyTrie "zz" (by decide)⟩

/-! ## Fuzzy search: exactness at distance 0 -/

theorem mk_data (s : String) : String.mk s.data = s := rfl

theorem wf_children {n : TNode} (h : WFNode n) : ∀ ce ∈ n.children, WFNode ce.2 := by
  cases h with
  | mk children e f ws hk hc => exact hc

theorem wf_keys {n : TNode} (h : WFNode n) : (n.children.map (fun x => x.1)).Nodup := by
  cases h with
  | mk children e f ws hk hc => exact hk

theorem mapGet_mem {α β : Type} [DecidableEq α] {l : List (α × β)} {c : α} {v : β}
    (h : mapGet l c = some v) : (c, v) ∈ l := by
  rw [mapGet] at h
  cases hf : l.find? (fun e => e.1 = c) with
  | none => rw [hf] at h; exact absurd h (by simp)
  | some e =>
    rw [hf] at h
    have hm := List.mem_of_find?_eq_some hf
    have hp := List.find?_some hf
    have he : e.1 = c := by simpa using hp
    have hv : e.2 = v := by simpa using h
    have : e = (c, v) := by
      cases e
      simp at he hv
      rw [he, hv]
    rw [← this]
    exact hm

theorem mem_nodup_mapGet {l : List (Char × TNode)} {c : Char} {v : TNode}
    (hnd : (l.map (fun x => x.1)).Nodup) (hm : (c, v) ∈ l) :
    mapGet l c = some v := by
  induction l with
  | nil => simp at hm
  | cons e l ih =>
    rw [List.map_cons, List.nodup_cons] at hnd
    rcases List.mem_cons.mp hm with hm | hm
    · rw [← hm]
      simp [mapGet, List.find?]
    · by_cases he : e.1 = c
      · exfalso
        apply hnd.1
        rw [he]
        exact List.mem_map.mpr ⟨(c, v), hm, rfl⟩
      · have := ih hnd.2 hm
        simp only [mapGet, List.find?] at this ⊢
        rw [show (decide (e.1 = c)) = false by simpa using he]
        exact this

theorem collect_prefix :
    ∀ (fuel : Nat) (n : TNode) (p : List Char) (e : List Char × Nat),
      e ∈ collectWords fuel n p → ∃ s, e.1 = p ++ s := by
  intro fuel
  induction fuel with
  | zero => intro n p e he; simp [collectWords] at he
  | succ fuel ih =>
    intro n p e he
    rw [collectWords] at he
    rcases List.mem_append.mp he with he | he
    · have : e = (p, n.frequency) := by
        by_cases hb : n.isEndOfWord <;> simp [hb] at he
        · exact he
      rw [this]
      exact ⟨[], by simp⟩
    · by_cases hp : 50 < p.length
      · simp [hp] at he
      · rw [if_neg hp] at he
        obtain ⟨ce, hce, hin⟩ := List.mem_flatMap.mp he
        obtain ⟨s, hs⟩ := ih ce.2 (p ++ [ce.1]) e hin
        exact ⟨ce.1 :: s, by simpa using hs⟩

theorem collect_complete :
    ∀ (cs : List Char) (fuel : Nat) (n : TNode) (p : List Char) (m : TNode),
      findNode n cs = some m → m.isEndOfWord = true →
      p.length + cs.length ≤ 51 → 52 ≤ fuel + p.length →
      (p ++ cs, m.frequency) ∈ collectWords fuel n p := by
  intro cs
  induction cs with
  | nil =>
    intro fuel n p m hf he hb hfu
    have hnm : n = m := by simpa [findNode] using hf
    subst hnm
    obtain ⟨fuel', rfl⟩ : ∃ f', fuel = f' + 1 := ⟨fuel - 1, by omega⟩
    rw [collectWords]
    apply List.mem_append.mpr
    left
    rw [he]
    simp
  | cons c rest ih =>
    intro fuel n p m hf he hb hfu
    rw [findNode] at hf
    cases hg : mapGet n.children c with
    | none => rw [hg] at hf; exact absurd hf (by simp)
    | some child =>
      rw [hg] at hf
      simp only at hf
      obtain ⟨fuel', rfl⟩ : ∃ f', fuel = f' + 1 := ⟨fuel - 1, by omega⟩
      rw [collectWords]
      apply List.mem_append.mpr
      right
      rw [if_neg (by simp at hb ⊢; omega)]
      apply List.mem_flatMap.mpr
      refine ⟨(c, child), mapGet_mem hg, ?_⟩
      have := ih fuel' child (p ++ [c]) m hf he
        (by simp at hb ⊢; omega) (by simp; omega)
      simpa using this

theorem collect_sound :
    ∀ (fuel : Nat) (n : TNode) (p w : List Char) (f : Nat),
      WFNode n → (w, f) ∈ collectWords fuel n p →
      ∃ cs m, w = p ++ cs ∧ findNode n cs = some m ∧
        m.isEndOfWord = true ∧ f = m.frequency := by
  intro fuel
  induction fuel with
  | zero => intro n p w f _ hm; simp [collectWords] at hm
  | succ fuel ih =>
    intro n p w f hwf hm
    rw [collectWords] at hm
    rcases List.mem_append.mp hm with hm | hm
    · by_cases hb : n.isEndOfWord
      · simp [hb] at hm
        exact ⟨[], n, by simp [hm.1], by simp [findNode], by simpa using hb, hm.2⟩
      · simp [hb] at hm
    · by_cases hp : 50 < p.length
      · simp [hp] at hm
      · rw [if_neg hp] at hm
        obtain ⟨ce, hce, hin⟩ := List.mem_flatMap.mp hm
        obtain ⟨cs, m, hw, hf, he, hfr⟩ :=
          ih ce.2 (p ++ [ce.1]) w f (wf_children hwf ce hce) hin
        refine ⟨ce.1 :: cs, m, by simpa using hw, ?_, he, hfr⟩
        rw [findNode]
        have hget : mapGet n.children ce.1 = some ce.2 := by
          apply mem_nodup_mapGet (wf_keys hwf)
          cases ce
          exact hce
        rw [hget]
        exact hf

theorem mem_insertSorted {α : Type} (le : α → α → Bool) (x y : α) (l : List α) :
    y ∈ insertSorted le x l ↔ y = x ∨ y ∈ l := by
  induction l with
  | nil => simp [insertSorted]
  | cons z l ih =>
    rw [insertSorted]
    by_cases h : le x z
    · rw [if_pos h]
      simp
    · rw [if_neg h]
      simp only [List.mem_cons, ih]
      tauto

theorem mem_sortBy {α : Type} (le : α → α → Bool) (y : α) (l : List α) :
    y ∈ sortBy le l ↔ y ∈ l := by
  induction l with
  | nil => simp [sortBy]
  | cons x l ih =>
    rw [sortBy, mem_insertSorted]
    simp only [List.mem_cons, ih]

theorem sortBy_eq_nil_iff {α : Type} (le : α → α → Bool) (l : List α) :
    sortBy le l = [] ↔ l = [] := by
  cases l with
  | nil => simp [sortBy]
  | cons x l =>
    simp only [sortBy]
    constructor
    · intro h
      exfalso
      have : x ∈ insertSorted le x (sortBy le l) := (mem_insertSorted le x x _).mpr (Or.inl rfl)
      rw [h] at this
      simp at this
    · intro h
      exact absurd h (by simp)

theorem wf_empty_root : WFNode emptyTrie.root :=
  WFNode.mk [] false 0 [] (by simp) (by simp)

theorem mapSet_mem {β : Type} {l : List (Char × β)} {c : Char} {v : β} :
    ∀ e ∈ mapSet l c v, e = (c, v) ∨ e ∈ l := by
  intro e he
  rw [mapSet] at he
  by_cases h : l.any (fun x => x.1 = c)
  · rw [if_pos h] at he
    obtain ⟨x, hx, hfx⟩ := List.mem_map.mp he
    by_cases hxc : x.1 = c
    · rw [if_pos hxc] at hfx
      exact Or.inl hfx.symm
    · rw [if_neg hxc] at hfx
      exact Or.inr (hfx ▸ hx)
  · rw [if_neg h] at he
    rcases List.mem_append.mp he with he | he
    · exact Or.inr he
    · exact Or.inl (by simpa using he)

theorem mapSet_keys {β : Type} (l : List (Char × β)) (c : Char) (v : β)
    (hnd : (l.map (fun x => x.1)).Nodup) :
    ((mapSet l c v).map (fun x => x.1)).Nodup := by
  rw [mapSet]
  by_cases h : l.any (fun x => x.1 = c)
  · rw [if_pos h]
    have : (l.map (fun e => if e.1 = c then (c, v) else e)).map (fun x => x.1) =
        l.map (fun x => x.1) := by
      rw [List.map_map]
      apply List.map_congr_left
      intro e _
      by_cases hec : e.1 = c
      · simp [hec]
      · simp [hec]
    rw [this]
    exact hnd
  · rw [if_neg h]
    rw [List.map_append]
    have hc : c ∉ l.map (fun x => x.1) := by
      intro hcmem
      obtain ⟨x, hx, hxc⟩ := List.mem_map.mp hcmem
      exact h (List.any_eq_true.mpr ⟨x, hx, by simpa using hxc⟩)
    simp only [List.map_cons, List.map_nil]
    exact List.Nodup.append hnd (by simp) (by
      intro a ha hb
      simp at hb
      rw [hb] at ha
      exact hc ha)

theorem wf_mapSet {children : List (Char × TNode)} {e : Bool} {f : Nat}
    {ws : List String} {c : Char} {v : TNode} {e' : Bool} {f' : Nat}
    {ws' : List String}
    (hwf : WFNode (.mk children e f ws)) (hv : WFNode v) :
    WFNode (.mk (mapSet children c v) e' f' ws') := by
  refine WFNode.mk _ _ _ _ ?_ ?_
  · exact mapSet_keys children c v (wf_keys hwf)
  · intro ce hce
    rcases mapSet_mem ce hce with hce | hce
    · rw [hce]
      exact hv
    · exact wf_children hwf ce hce

theorem wf_insertPath (w : String) :
    ∀ (cs : List Char) (n : TNode), WFNode n → WFNode (TNode.insertPath w n cs) := by
  intro cs
  induction cs with
  | nil =>
    intro n hn
    rw [TNode.insertPath]
    cases hn with
    | mk children e f ws hk hc => exact WFNode.mk _ _ _ _ hk hc
  | cons c rest ih =>
    intro n hn
    rw [TNode.insertPath]
    have hchild : WFNode ((mapGet n.children c).getD (.mk [] false 0 [])) := by
      cases hg : mapGet n.children c with
      | none => exact WFNode.mk [] false 0 [] (by simp) (by simp)
      | some child =>
        have := wf_children hn (c, child) (mapGet_mem hg)
        simpa using this
    cases hn with
    | mk children e f ws hk hc =>
      exact wf_mapSet (WFNode.mk children e f ws hk hc) (ih _ hchild)

theorem wf_insert (t : Trie) (w : String) (h : WFNode t.root) :
    WFNode (Trie.insert t w).root := by
  rw [Trie.insert]
  by_cases hw : (normalize w).length = 0
  · rw [if_pos hw]
    exact h
  · rw [if_neg hw]
    exact wf_insertPath (normalize w) (normalize w).data t.root h

/-- Claim C7 (amended, proved): for every well-formed trie state and every
query whose normalisation is non-empty and at most 51 characters long (the
reach of collectWords under its depth-50 prefix cap), fuzzySearch(q, 0)
contains exactly the normalised query, and only when it is stored. -/
theorem C7_fuzzy_zero_exact (t : Trie) (q : String) (hwf : WFNode t.root)
    (hq : (normalize q).length ≠ 0) (hlen : (normalize q).length ≤ 51) :
    ∀ s, s ∈ Trie.fuzzySearch t q 0 ↔
      (s = normalize q ∧ Trie.contains t q = true) := by
  intro s
  rw [Trie.fuzzySearch, if_neg hq]
  have hlen' : (normalize q).data.length ≤ 51 := hlen
  have hA : ∀ e' ∈ (collectAllWords t).filterMap
      (fun e => if lev (normalize q).data e.1 ≤ 0 then
        some (e.1, lev (normalize q).data e.1, e.2) else none),
      e'.1 = (normalize q).data := by
    intro e' he'
    obtain ⟨e, _, hfe⟩ := List.mem_filterMap.mp he'
    by_cases hd : lev (normalize q).data e.1 ≤ 0
    · rw [if_pos hd] at hfe
      have heq : (normalize q).data = e.1 :=
        (lev_eq_zero_iff _ _).mp (by omega)
      have h2 := Option.some.inj hfe
      rw [← h2]
      exact heq.symm
    · rw [if_neg hd] at hfe
      exact absurd hfe (by simp)
  have hBmp : ((collectAllWords t).filterMap
      (fun e => if lev (normalize q).data e.1 ≤ 0 then
        some (e.1, lev (normalize q).data e.1, e.2) else none)) ≠ [] →
      Trie.contains t q = true := by
    intro hne
    obtain ⟨e', he'⟩ := List.exists_mem_of_ne_nil _ hne
    obtain ⟨e, hecoll, hfe⟩ := List.mem_filterMap.mp he'
    have he1 : e.1 = (normalize q).data := by
      by_cases hd : lev (normalize q).data e.1 ≤ 0
      · exact ((lev_eq_zero_iff _ _).mp (by omega)).symm
      · rw [if_neg hd] at hfe
        exact absurd hfe (by simp)
    obtain ⟨cs, m, hw, hfind, hend, _⟩ :=
      collect_sound 52 t.root [] e.1 e.2 hwf (by cases e; exact hecoll)
    rw [Trie.contains, if_neg hq]
    have hcs : cs = (normalize q).data := by
      rw [he1] at hw
      simpa using hw.symm
    rw [← hcs, hfind]
    exact hend
  have hBmpr : Trie.contains t q = true →
      ((collectAllWords t).filterMap
        (fun e => if lev (normalize q).data e.1 ≤ 0 then
          some (e.1, lev (normalize q).data e.1, e.2) else none)) ≠ [] := by
    intro hc
    rw [Trie.contains, if_neg hq] at hc
    cases hfind : findNode t.root (normalize q).data with
    | none => rw [hfind] at hc; exact absurd hc (by simp)
    | some m =>
      rw [hfind] at hc
      have hmem := collect_complete (normalize q).data 52 t.root [] m hfind hc
        (by simpa using hlen') (by simp)
      intro hnil
      have : ((normalize q).data, lev (normalize q).data (normalize q).data, m.frequency) ∈
          (collectAllWords t).filterMap
            (fun e => if lev (normalize q).data e.1 ≤ 0 then
              some (e.1, lev (normalize q).data e.1, e.2) else none) := by
        apply List.mem_filterMap.mpr
        refine ⟨((normalize q).data, m.frequency), by simpa using hmem, ?_⟩
        rw [if_pos (by rw [(lev_eq_zero_iff _ _).mpr rfl])]
      rw [hnil] at this
      simp at this
  constructor
  · intro hs
    obtain ⟨e', he', hse⟩ := List.mem_map.mp hs
    have he'sorted := List.mem_of_mem_take he'
    have he'results := (mem_sortBy fuzzyLe e' _).mp he'sorted
    have h1 := hA e' he'results
    constructor
    · rw [← hse, h1, mk_data]
    · exact hBmp (by intro hnil; rw [hnil] at he'results; simp at he'results)
  · rintro ⟨hs, hc⟩
    have hne := hBmpr hc
    have hsne : sortBy fuzzyLe ((collectAllWords t).filterMap
        (fun e => if lev (normalize q).data e.1 ≤ 0 then
          some (e.1, lev (normalize q).data e.1, e.2) else none)) ≠ [] := by
      intro h
      exact hne ((sortBy_eq_nil_iff _ _).mp h)
    cases hss : sortBy fuzzyLe ((collectAllWords t).filterMap
        (fun e => if lev (normalize q).data e.1 ≤ 0 then
          some (e.1, lev (normalize q).data e.1, e.2) else none)) with
    | nil => exact absurd hss hsne
    | cons x rest =>
      have hx : x ∈ (collectAllWords t).filterMap
          (fun e => if lev (normalize q).data e.1 ≤ 0 then
            some (e.1, lev (normalize q).data e.1, e.2) else none) := by
        have hxmem : x ∈ x :: rest := by simp
        rw [← hss] at hxmem
        exact (mem_sortBy fuzzyLe x _).mp hxmem
      have hx1 := hA x hx
      apply List.mem_map.mpr
      refine ⟨x, ?_, ?_⟩
      · rw [hss]
        simp [List.take]
      · rw [hx1, mk_data, hs]

/-- Witness for the amended claim C7 at the well-formed two-node trie
holding "ab" with query "ab". -/
theorem C7_fuzzy_zero_exact_witness :
    WFNode (Trie.insert emptyTrie "ab").root ∧
    (normalize "ab").length ≠ 0 ∧ (normalize "ab").length ≤ 51 ∧
    ("ab" ∈ Trie.fuzzySearch (Trie.insert emptyTrie "ab") "ab" 0 ↔
      ("ab" = normalize "ab" ∧ Trie.contains (Trie.insert emptyTrie "ab") "ab" = true)) :=
  ⟨wf_insert emptyTrie "ab" wf_empty_root, by decide, by decide,
   C7_fuzzy_zero_exact (Trie.insert emptyTrie "ab") "ab"
     (wf_insert emptyTrie "ab" wf_empty_root) (by decide) (by decide) "ab"⟩

set_option maxRecDepth 20000 in
/-- Claim C7 (counterexample): the claim as stated fails for stored words
longer than 51 characters, which collectWords never reaches because it stops
descending once the prefix exceeds 50 characters.  A trie storing the
52-character word a...a contains it, yet fuzzySearch with distance 0 returns
the empty list instead of that word. -/
theorem C7_depth_cap_counterexample :
    Trie.contains (Trie.insert emptyTrie (String.mk (List.replicate 52 'a')))
      (String.mk (List.replicate 52 'a')) = true ∧
    Trie.fuzzySearch (Trie.insert emptyTrie (String.mk (List.replicate 52 'a')))
      (String.mk (List.replicate 52 'a')) 0 = [] := by
  refine ⟨by decide, by decide⟩

/-! ## Rabin-Karp: rolling hash arithmetic -/

theorem polyVal_append_one (w : List Char) (c : Char) :
    polyVal (w ++ [c]) = polyVal w * 256 + (c.toNat : Int) := by
  rw [polyVal, polyVal, List.foldl_append]
  rfl

theorem polyVal_foldl_init (w : List Char) :
    ∀ h : Int, w.foldl (fun h c => h * 256 + (c.toNat : Int)) h =
      h * 256 ^ w.length + polyVal w := by
  induction w with
  | nil => intro h; simp [polyVal]
  | cons c w ih =>
    intro h
    rw [List.foldl_cons, ih (h * 256 + (c.toNat : Int))]
    have hpv : polyVal (c :: w) = (c.toNat : Int) * 256 ^ w.length + polyVal w := by
      rw [polyVal, List.foldl_cons]
      rw [show ((0 : Int) * 256 + (c.toNat : Int)) = (c.toNat : Int) by ring]
      exact ih (c.toNat : Int)
    rw [hpv]
    simp [List.length_cons, pow_succ]
    ring

theorem polyVal_cons (c : Char) (w : List Char) :
    polyVal (c :: w) = (c.toNat : Int) * 256 ^ w.length + polyVal w := by
  rw [polyVal, List.foldl_cons]
  rw [show ((0 : Int) * 256 + (c.toNat : Int)) = (c.toNat : Int) by ring]
  exact polyVal_foldl_init w (c.toNat : Int)

theorem foldl_hash_emod (w : List Char) :
    ∀ h : Int, w.foldl (fun h c => (h * 256 + (c.toNat : Int)) % 101) (h % 101) =
      (w.foldl (fun h c => h * 256 + (c.toNat : Int)) h) % 101 := by
  induction w with
  | nil => intro h; simp
  | cons c w ih =>
    intro h
    rw [List.foldl_cons, List.foldl_cons]
    have : (h % 101 * 256 + (c.toNat : Int)) % 101 = (h * 256 + (c.toNat : Int)) % 101 := by
      omega
    rw [this]
    exact ih (h * 256 + (c.toNat : Int))

theorem computeHash_eq_polyVal (s : List Char) : computeHash s = polyVal s % 101 := by
  rw [computeHash, polyVal]
  rw [show (0 : Int) = 0 % 101 by rfl]
  exact foldl_hash_emod s 0

theorem rolling_correct (c c' : Char) (w : List Char) :
    rollingHash (computeHash (c :: w)) c c' (w.length + 1) =
      computeHash (w ++ [c']) := by
  rw [rollingHash]
  simp only [Nat.add_sub_cancel]
  rw [computeHash_eq_polyVal, computeHash_eq_polyVal, polyVal_cons, polyVal_append_one]
  have e1 : ((c.toNat : Int) * ((256 : Int) ^ w.length % 101)) % 101 =
      ((c.toNat : Int) * (256 : Int) ^ w.length) % 101 := by
    conv_rhs => rw [Int.mul_emod]
    conv_lhs => rw [Int.mul_emod, Int.emod_emod_of_dvd _ dvd_rfl]
  rw [e1]
  have e2 : ((((c.toNat : Int) * (256 : Int) ^ w.length + polyVal w) % 101 -
      ((c.toNat : Int) * (256 : Int) ^ w.length) % 101 + 101) % 101) = polyVal w % 101 := by
    omega
  rw [e2]
  omega

/-! ## Rabin-Karp: map bookkeeping lemmas -/

theorem find_key_map {β : Type} {α : Type} [DecidableEq α]
    (l : List (α × β)) (k k' : α) (v : β) (hne : k' ≠ k) :
    List.find? (fun e => decide (e.1 = k'))
        (l.map (fun e => if e.1 = k then (k, v) else e)) =
      List.find? (fun e => decide (e.1 = k')) l := by
  induction l with
  | nil => rfl
  | cons e l ih =>
    simp only [List.map_cons, List.find?]
    by_cases hek : e.1 = k
    · have h1 : (decide ((k, v).1 = k')) = false := by
        simp only [decide_eq_false_iff_not]
        intro hk
        exact hne hk.symm
      have h2 : (decide (e.1 = k')) = false := by
        simp only [decide_eq_false_iff_not]
        rw [hek]
        intro hk
        exact hne hk.symm
      simp only [if_pos hek, h1, h2]
      exact ih
    · by_cases hek' : e.1 = k'
      · simp only [if_neg hek, show (decide (e.1 = k')) = true by simpa using hek']
      · simp only [if_neg hek, show (decide (e.1 = k')) = false by simpa using hek']
        exact ih

theorem mapGet_mapSet_ne {β : Type} {α : Type} [DecidableEq α]
    (l : List (α × β)) (k k' : α) (v : β) (hne : k' ≠ k) :
    mapGet (mapSet l k v) k' = mapGet l k' := by
  rw [mapSet]
  by_cases h : l.any (fun e => e.1 = k)
  · rw [if_pos h]
    simp only [mapGet]
    rw [find_key_map l k k' v hne]
  · rw [if_neg h]
    simp only [mapGet]
    rw [List.find?_append]
    have hnil : List.find? (fun e => decide (e.1 = k')) [(k, v)] = none := by
      simp only [List.find?]
      rw [show (decide ((k, v).1 = k')) = false by
        simp only [decide_eq_false_iff_not]
        intro hk
        exact hne hk.symm]
    rw [hnil]
    simp

/-- An entry of the pattern-hash table survives further insertions. -/
theorem phash_step_preserve (hs : List (Int × List (List Char)))
    (q p : List Char) (b : List (List Char))
    (h : mapGet hs (computeHash p) = some b ∧ p ∈ b) :
    ∃ b', mapGet
        (if q.length = 0 then hs
         else mapSet hs (computeHash q) ((mapGet hs (computeHash q)).getD [] ++ [q]))
        (computeHash p) = some b' ∧ p ∈ b' := by
  by_cases hq : q.length = 0
  · rw [if_pos hq]
    exact ⟨b, h.1, h.2⟩
  · rw [if_neg hq]
    by_cases hh : computeHash q = computeHash p
    · rw [hh, mapGet_mapSet_self]
      refine ⟨_, rfl, ?_⟩
      rw [h.1]
      exact List.mem_append.mpr (Or.inl h.2)
    · rw [mapGet_mapSet_ne _ _ _ _ (fun hc => hh hc.symm)]
      exact ⟨b, h.1, h.2⟩

theorem patternHashes_mem :
    ∀ (ps : List (List Char)) (hs : List (Int × List (List Char)))
      (p : List Char), p.length ≠ 0 →
      (p ∈ ps ∨ ∃ b, mapGet hs (computeHash p) = some b ∧ p ∈ b) →
      ∃ b, mapGet
        (ps.foldl (fun hs q =>
          if q.length = 0 then hs
          else mapSet hs (computeHash q) ((mapGet hs (computeHash q)).getD [] ++ [q])) hs)
        (computeHash p) = some b ∧ p ∈ b := by
  intro ps
  induction ps with
  | nil =>
    intro hs p hp h
    rcases h with h | h
    · simp at h
    · exact h
  | cons q ps ih =>
    intro hs p hp h
    rw [List.foldl_cons]
    rcases h with h | h
    · rcases List.mem_cons.mp h with h | h
      · subst h
        apply ih _ p hp
        right
        rw [if_neg hp, mapGet_mapSet_self]
        exact ⟨_, rfl, List.mem_append.mpr (Or.inr (by simp))⟩
      · exact ih _ p hp (Or.inl h)
    · obtain ⟨b, hb1, hb2⟩ := h
      exact ih _ p hp (Or.inr (phash_step_preserve hs q p b ⟨hb1, hb2⟩))

theorem computePatternHashes_mem (patterns : List (List Char)) (p : List Char)
    (hp : p ∈ patterns) (hne : p.length ≠ 0) :
    ∃ b, mapGet (computePatternHashes patterns) (computeHash p) = some b ∧ p ∈ b := by
  rw [computePatternHashes]
  exact patternHashes_mem patterns [] p hne (Or.inl hp)

/-- Folding the per-pattern check over patterns that do not mention p leaves
p's entry untouched. -/
theorem checkFold_preserve (_text : List Char) (pos : Nat)
    (cand : List (List Char)) (sub : List Char) (p : List Char) :
    ∀ (qs : List (List Char)) (m : List (List Char × List Nat)),
      p ∉ qs →
      mapGet (qs.foldl (fun m q =>
        if cand.contains q ∧ q = sub then
          mapSet m q ((mapGet m q).getD [] ++ [pos]) else m) m) p = mapGet m p := by
  intro qs
  induction qs with
  | nil => intro m _; rfl
  | cons q qs ih =>
    intro m hp
    rw [List.foldl_cons]
    have hqp : p ≠ q := fun h => hp (by rw [h]; simp)
    by_cases hc : cand.contains q ∧ q = sub
    · rw [if_pos hc]
      rw [ih _ (fun h => hp (by simp [h]))]
      exact mapGet_mapSet_ne _ _ _ _ hqp
    · rw [if_neg hc]
      exact ih _ (fun h => hp (by simp [h]))

theorem checkFold_get (text : List Char) (pos : Nat)
    (cand : List (List Char)) (sub : List Char) (p : List Char) :
    ∀ (qs : List (List Char)) (m : List (List Char × List Nat)) (cur : List Nat),
      qs.Nodup → p ∈ qs → mapGet m p = some cur →
      mapGet (qs.foldl (fun m q =>
        if cand.contains q ∧ q = sub then
          mapSet m q ((mapGet m q).getD [] ++ [pos]) else m) m) p =
        some (cur ++ if cand.contains p ∧ p = sub then [pos] else []) := by
  intro qs
  induction qs with
  | nil => intro m cur _ hp _; simp at hp
  | cons q qs ih =>
    intro m cur hnd hp hm
    rw [List.foldl_cons]
    rcases List.mem_cons.mp hp with hpq | hpq
    · subst hpq
      have hnotin : p ∉ qs := (List.nodup_cons.mp hnd).1
      by_cases hc : cand.contains p ∧ p = sub
      · rw [if_pos hc]
        rw [checkFold_preserve text pos cand sub p qs _ hnotin]
        rw [hm]
        simp only [Option.getD_some]
        rw [mapGet_mapSet_self, if_pos hc]
      · rw [if_neg hc]
        rw [checkFold_preserve text pos cand sub p qs _ hnotin, hm, if_neg hc]
        simp
    · have hqp : p ≠ q := by
        intro h
        exact (List.nodup_cons.mp hnd).1 (h ▸ hpq)
      by_cases hc : cand.contains q ∧ q = sub
      · rw [if_pos hc]
        exact ih _ cur (List.nodup_cons.mp hnd).2 hpq
          (by rw [mapGet_mapSet_ne _ _ _ _ hqp]; exact hm)
      · rw [if_neg hc]
        exact ih _ cur (List.nodup_cons.mp hnd).2 hpq hm

/-- The per-window check appends the position to p's list exactly when the
window slice is p, provided the window hash is the hash of the slice and p
has a bucket containing it. -/
theorem checkHashMatch_get (text : List Char)
    (pH : List (Int × List (List Char))) (pos len : Nat)
    (pats : List (List Char)) (m : List (List Char × List Nat))
    (p : List Char) (cur : List Nat)
    (hnd : pats.Nodup) (hp : p ∈ pats) (hm : mapGet m p = some cur)
    (hbucket : ∃ b, mapGet pH (computeHash p) = some b ∧ p ∈ b) :
    mapGet (checkHashMatch text pH pos len (computeHash ((text.drop pos).take len)) pats m) p =
      some (cur ++ if p = (text.drop pos).take len then [pos] else []) := by
  rw [checkHashMatch]
  cases hb : mapGet pH (computeHash ((text.drop pos).take len)) with
  | none =>
    rw [hm]
    have hsub : ¬(p = (text.drop pos).take len) := by
      intro hsubeq
      obtain ⟨b, hb', _⟩ := hbucket
      rw [hsubeq] at hb'
      rw [hb'] at hb
      exact absurd hb (by simp)
    rw [if_neg hsub]
    simp
  | some candidates =>
    have hfold := checkFold_get text pos candidates ((text.drop pos).take len) p pats m cur hnd hp hm
    rw [hfold]
    congr 1
    by_cases hsub : p = (text.drop pos).take len
    · rw [if_pos hsub]
      have hcontains : candidates.contains p = true := by
        obtain ⟨b, hb', hpb⟩ := hbucket
        rw [hsub] at hb' hpb
        rw [hb'] at hb
        have hcb : candidates = b := by simpa using hb.symm
        rw [hcb, hsub]
        exact List.elem_eq_true_of_mem hpb
      rw [if_pos ⟨hcontains, hsub⟩]
    · rw [if_neg hsub, if_neg (fun hc => hsub hc.2)]

/-! ## Rabin-Karp: window slices and the rolling scan -/

theorem slice_head (t : List Char) (pos L : Nat) (hpos : pos < t.length) (hL : 1 ≤ L) :
    (t.drop pos).take L = t.getD pos ' ' :: ((t.drop (pos + 1)).take (L - 1)) := by
  have hdrop : t.drop pos = t.getD pos ' ' :: t.drop (pos + 1) := by
    rw [List.drop_eq_getElem_cons hpos]
    congr 1
    rw [List.getD_eq_getElem?_getD, List.getElem?_eq_getElem hpos]
    rfl
  rw [hdrop]
  obtain ⟨L', rfl⟩ : ∃ L', L = L' + 1 := ⟨L - 1, by omega⟩
  rw [List.take_succ_cons]
  simp

theorem slice_snoc (t : List Char) (pos L : Nat) (hend : pos + L < t.length)
    (hL : 1 ≤ L) :
    (t.drop (pos + 1)).take L =
      (t.drop (pos + 1)).take (L - 1) ++ [t.getD (pos + L) ' '] := by
  obtain ⟨L', rfl⟩ : ∃ L', L = L' + 1 := ⟨L - 1, by omega⟩
  rw [List.take_succ]
  simp only [Nat.add_sub_cancel]
  congr 1
  rw [List.getElem?_drop]
  rw [show pos + 1 + L' = pos + (L' + 1) by omega]
  rw [List.getElem?_eq_getElem (show pos + (L' + 1) < t.length by omega)]
  rw [List.getD_eq_getElem?_getD,
    List.getElem?_eq_getElem (show pos + (L' + 1) < t.length by omega)]
  rfl

theorem slice_mid_length (t : List Char) (pos L : Nat) (hend : pos + L < t.length) :
    ((t.drop (pos + 1)).take (L - 1)).length = L - 1 := by
  rw [List.length_take, List.length_drop]
  omega

theorem rkLoop_get (text : List Char) (pH : List (Int × List (List Char)))
    (pats : List (List Char)) (L : Nat) (p : List Char)
    (hnd : pats.Nodup) (hp : p ∈ pats) (hL : 1 ≤ L)
    (hbucket : ∃ b, mapGet pH (computeHash p) = some b ∧ p ∈ b) :
    ∀ (fuel i : Nat) (m : List (List Char × List Nat)) (cur : List Nat),
      L ≤ i → text.length ≤ fuel + i →
      mapGet m p = some cur →
      mapGet (rkLoop text pH pats L fuel
          (computeHash ((text.drop (i - L)).take L)) i m) p =
        some (cur ++ (List.range' (i - L + 1) (text.length - i)).filter
          (fun pos => decide (p = (text.drop pos).take L))) := by
  intro fuel
  induction fuel with
  | zero =>
    intro i m cur hLi hfi hm
    rw [rkLoop]
    rw [show text.length - i = 0 by omega]
    simpa using hm
  | succ fuel ih =>
    intro i m cur hLi hfi hm
    rw [rkLoop]
    by_cases hi : i < text.length
    · rw [if_pos hi]
      have hpos : i - L < text.length := by omega
      have hend : (i - L) + L < text.length := by omega
      have hmid := slice_mid_length text (i - L) L hend
      have hold : (text.drop (i - L)).take L =
          text.getD (i - L) ' ' :: ((text.drop (i - L + 1)).take (L - 1)) :=
        slice_head text (i - L) L hpos hL
      have hnew : (text.drop (i - L + 1)).take L =
          ((text.drop (i - L + 1)).take (L - 1)) ++ [text.getD ((i - L) + L) ' '] :=
        slice_snoc text (i - L) L hend hL
      have hgetDi : i - L + L = i := by omega
      have hroll : rollingHash (computeHash ((text.drop (i - L)).take L))
          (text.getD (i - L) ' ') (text.getD i ' ') L =
          computeHash ((text.drop (i - L + 1)).take L) := by
        rw [hold, hnew, hgetDi]
        set mid := (text.drop (i - L + 1)).take (L - 1) with hmiddef
        nth_rewrite 3 [show L = mid.length + 1 by omega]
        exact rolling_correct (text.getD (i - L) ' ') (text.getD i ' ') mid
      rw [hroll]
      have hcheck := checkHashMatch_get text pH (i - L + 1) L pats m p cur hnd hp hm hbucket
      have hstep := ih (i + 1)
        (checkHashMatch text pH (i - L + 1) L
          (computeHash ((text.drop (i - L + 1)).take L)) pats m)
        (cur ++ if p = (text.drop (i - L + 1)).take L then [i - L + 1] else [])
        (by omega) (by omega) hcheck
      rw [show i + 1 - L = i - L + 1 by omega] at hstep
      rw [hstep]
      have hr : List.range' (i - L + 1) (text.length - i) =
          (i - L + 1) :: List.range' (i - L + 1 + 1) (text.length - (i + 1)) := by
        rw [show text.length - i = (text.length - (i + 1)) + 1 by omega]
        rw [List.range'_succ]
      rw [hr, List.filter_cons]
      by_cases hsl : p = (text.drop (i - L + 1)).take L
      · rw [if_pos hsl, if_pos (by simpa using hsl)]
        simp
      · rw [if_neg hsl, if_neg (by simpa using hsl)]
        simp
    · rw [if_neg hi]
      rw [show text.length - i = 0 by omega]
      simpa using hm

/-! ## Rabin-Karp: assembling searchPatternsOfLength -/

theorem m0_get (p : List Char) :
    ∀ (qs : List (List Char)) (acc : List (List Char × List Nat)),
      (p ∈ qs ∨ mapGet acc p = some []) →
      mapGet (qs.foldl (fun m q => mapSet m q []) acc) p = some [] := by
  intro qs
  induction qs with
  | nil =>
    intro acc h
    rcases h with h | h
    · simp at h
    · exact h
  | cons q qs ih =>
    intro acc h
    rw [List.foldl_cons]
    by_cases hqp : q = p
    · subst hqp
      exact ih _ (Or.inr (mapGet_mapSet_self _ _ _))
    · rcases h with h | h
      · rcases List.mem_cons.mp h with h | h
        · exact absurd h.symm hqp
        · exact ih _ (Or.inl h)
      · refine ih _ (Or.inr ?_)
        rw [mapGet_mapSet_ne _ _ _ _ (fun hc => hqp hc.symm)]
        exact h

theorem keys_mapSet_nodup {α β : Type} [DecidableEq α]
    (l : List (α × β)) (k : α) (v : β)
    (h : (l.map (fun e => e.1)).Nodup) :
    ((mapSet l k v).map (fun e => e.1)).Nodup := by
  rw [mapSet]
  by_cases hk : l.any (fun e => e.1 = k)
  · rw [if_pos hk]
    have heq : (l.map (fun e => if e.1 = k then (k, v) else e)).map (fun e => e.1) =
        l.map (fun e => e.1) := by
      rw [List.map_map]
      apply List.map_congr_left
      intro e _
      by_cases hek : e.1 = k
      · simp [hek]
      · simp [hek]
    rw [heq]
    exact h
  · rw [if_neg hk, List.map_append]
    simp only [List.map_cons, List.map_nil]
    refine List.Nodup.append h (by simp) ?_
    intro a ha hb
    simp at hb
    rw [hb] at ha
    obtain ⟨e, he, hek⟩ := List.mem_map.mp ha
    exact hk (List.any_eq_true.mpr ⟨e, he, by simpa using hek⟩)

theorem keys_m0_nodup (qs : List (List Char)) :
    ∀ (acc : List (List Char × List Nat)),
      (acc.map (fun e => e.1)).Nodup →
      ((qs.foldl (fun m q => mapSet m q []) acc).map (fun e => e.1)).Nodup := by
  induction qs with
  | nil => intro acc h; exact h
  | cons q qs ih =>
    intro acc h
    rw [List.foldl_cons]
    exact ih _ (keys_mapSet_nodup acc q [] h)

theorem keys_checkFold_nodup (cand : List (List Char)) (sub : List Char) (pos : Nat) :
    ∀ (qs : List (List Char)) (m : List (List Char × List Nat)),
      (m.map (fun e => e.1)).Nodup →
      ((qs.foldl (fun m q =>
        if cand.contains q ∧ q = sub then
          mapSet m q ((mapGet m q).getD [] ++ [pos]) else m) m).map (fun e => e.1)).Nodup := by
  intro qs
  induction qs with
  | nil => intro m h; exact h
  | cons q qs ih =>
    intro m h
    rw [List.foldl_cons]
    by_cases hc : cand.contains q ∧ q = sub
    · rw [if_pos hc]
      exact ih _ (keys_mapSet_nodup m q _ h)
    · rw [if_neg hc]
      exact ih _ h

theorem keys_checkHashMatch_nodup (text : List Char)
    (pH : List (Int × List (List Char))) (pos len : Nat)
    (pats : List (List Char)) (m : List (List Char × List Nat)) (h : Int)
    (hm : (m.map (fun e => e.1)).Nodup) :
    ((checkHashMatch text pH pos len h pats m).map (fun e => e.1)).Nodup := by
  rw [checkHashMatch]
  cases hb : mapGet pH h with
  | none => exact hm
  | some candidates => exact keys_checkFold_nodup candidates _ pos pats m hm

theorem keys_rkLoop_nodup (text : List Char) (pH : List (Int × List (List Char)))
    (pats : List (List Char)) (L : Nat) :
    ∀ (fuel i : Nat) (h : Int) (m : List (List Char × List Nat)),
      (m.map (fun e => e.1)).Nodup →
      ((rkLoop text pH pats L fuel h i m).map (fun e => e.1)).Nodup := by
  intro fuel
  induction fuel with
  | zero => intro i h m hm; exact hm
  | succ fuel ih =>
    intro i h m hm
    rw [rkLoop]
    by_cases hi : i < text.length
    · rw [if_pos hi]
      exact ih _ _ _ (keys_checkHashMatch_nodup text pH _ L pats m _ hm)
    · rw [if_neg hi]
      exact hm

theorem mapGet_filter_of_pred {α β : Type} [DecidableEq α]
    (l : List (α × β)) (k : α) (v : β) (qv : β → Bool)
    (h : mapGet l k = some v) (hq : qv v = true) :
    mapGet (l.filter (fun e => qv e.2)) k = some v := by
  induction l with
  | nil => simp [mapGet] at h
  | cons e l ih =>
    rw [List.filter_cons]
    by_cases hek : e.1 = k
    · have hv : e.2 = v := by
        simp only [mapGet, List.find?,
          show (decide (e.1 = k)) = true by simpa using hek] at h
        simpa using h
      rw [if_pos (by rw [hv]; simpa using hq)]
      simp only [mapGet, List.find?,
        show (decide (e.1 = k)) = true by simpa using hek]
      simpa using hv
    · have h' : mapGet l k = some v := by
        simp only [mapGet, List.find?,
          show (decide (e.1 = k)) = false by simpa using hek] at h
        exact h
      by_cases hkeep : qv e.2
      · rw [if_pos (by simpa using hkeep)]
        simp only [mapGet, List.find?,
          show (decide (e.1 = k)) = false by simpa using hek]
        exact ih h'
      · rw [if_neg (by simpa using hkeep)]
        exact ih h'

theorem mapGet_none_no_key {α β : Type} [DecidableEq α]
    (l : List (α × β)) (k : α) (h : ∀ e ∈ l, e.1 ≠ k) :
    mapGet l k = none := by
  induction l with
  | nil => rfl
  | cons e l ih =>
    simp only [mapGet, List.find?,
      show (decide (e.1 = k)) = false by simpa using h e (by simp)]
    exact ih (fun e' he' => h e' (by simp [he']))

theorem mapGet_filter_of_not_pred {α β : Type} [DecidableEq α]
    (l : List (α × β)) (k : α) (v : β) (qv : β → Bool)
    (hnd : (l.map (fun e => e.1)).Nodup)
    (h : mapGet l k = some v) (hq : qv v = false) :
    mapGet (l.filter (fun e => qv e.2)) k = none := by
  induction l with
  | nil => simp [mapGet] at h
  | cons e l ih =>
    rw [List.map_cons, List.nodup_cons] at hnd
    rw [List.filter_cons]
    by_cases hek : e.1 = k
    · have hv : e.2 = v := by
        simp only [mapGet, List.find?,
          show (decide (e.1 = k)) = true by simpa using hek] at h
        simpa using h
      have hnok : ∀ e' ∈ l.filter (fun e => qv e.2), e'.1 ≠ k := by
        intro e' he' hk
        apply hnd.1
        rw [hek, ← hk]
        exact List.mem_map.mpr ⟨e', List.mem_of_mem_filter he', rfl⟩
      by_cases hkeep : qv e.2
      · exact absurd (by rw [hv] at hkeep; rw [hkeep] at hq; exact hq) (by simp)
      · rw [if_neg (by simpa using hkeep)]
        exact mapGet_none_no_key _ _ hnok
    · have h' : mapGet l k = some v := by
        simp only [mapGet, List.find?,
          show (decide (e.1 = k)) = false by simpa using hek] at h
        exact h
      by_cases hkeep : qv e.2
      · rw [if_pos (by simpa using hkeep)]
        simp only [mapGet, List.find?,
          show (decide (e.1 = k)) = false by simpa using hek]
        exact ih hnd.2 h'
      · rw [if_neg (by simpa using hkeep)]
        exact ih hnd.2 h'

theorem rkPositions_eq_mapGet (l : List (List Char × List Nat)) (p : List Char) :
    rkPositions l p = (mapGet l p).getD [] := rfl

theorem searchPOL_positions (text : List Char) (pH : List (Int × List (List Char)))
    (pats : List (List Char)) (L : Nat) (p : List Char)
    (hnd : pats.Nodup) (hp : p ∈ pats) (hL : 1 ≤ L)
    (hbucket : ∃ b, mapGet pH (computeHash p) = some b ∧ p ∈ b) :
    rkPositions (searchPatternsOfLength text pH pats L) p =
      (List.range' 0 (text.length + 1 - L)).filter
        (fun pos => decide (p = (text.drop pos).take L)) := by
  rw [searchPatternsOfLength]
  by_cases hlen : text.length < L
  · rw [if_pos hlen]
    rw [show text.length + 1 - L = 0 by omega]
    rfl
  · rw [if_neg hlen]
    have hm0 : mapGet (pats.foldl (fun m q => mapSet m q [])
        ([] : List (List Char × List Nat))) p = some [] :=
      m0_get p pats [] (Or.inl hp)
    have hm0keys : ((pats.foldl (fun m q => mapSet m q [])
        ([] : List (List Char × List Nat))).map (fun e => e.1)).Nodup :=
      keys_m0_nodup pats [] (by simp)
    have htake : text.take L = (text.drop 0).take L := by simp
    rw [htake]
    have hcheck := checkHashMatch_get text pH 0 L pats
      (pats.foldl (fun m q => mapSet m q []) ([] : List (List Char × List Nat)))
      p [] hnd hp hm0 hbucket
    have hm1keys := keys_checkHashMatch_nodup text pH 0 L pats
      (pats.foldl (fun m q => mapSet m q []) ([] : List (List Char × List Nat)))
      (computeHash ((text.drop 0).take L)) hm0keys
    have hloop := rkLoop_get text pH pats L p hnd hp hL hbucket
      text.length L
      (checkHashMatch text pH 0 L (computeHash ((text.drop 0).take L)) pats
        (pats.foldl (fun m q => mapSet m q []) ([] : List (List Char × List Nat))))
      ([] ++ if p = (text.drop 0).take L then [0] else [])
      le_rfl (by omega) hcheck
    rw [show L - L = 0 by omega] at hloop
    have hval : ([] ++ if p = (text.drop 0).take L then [0] else []) ++
        (List.range' (0 + 1) (text.length - L)).filter
          (fun pos => decide (p = (text.drop pos).take L)) =
        (List.range' 0 (text.length + 1 - L)).filter
          (fun pos => decide (p = (text.drop pos).take L)) := by
      rw [show text.length + 1 - L = (text.length - L) + 1 by omega]
      rw [List.range'_succ, List.filter_cons]
      by_cases hsl : p = (text.drop 0).take L
      · rw [if_pos hsl, if_pos (by simpa using hsl)]
        simp
      · rw [if_neg hsl, if_neg (by simpa using hsl)]
        simp
    rw [hval] at hloop
    have hkeysF := keys_rkLoop_nodup text pH pats L text.length L
      (computeHash ((text.drop 0).take L))
      (checkHashMatch text pH 0 L (computeHash ((text.drop 0).take L)) pats
        (pats.foldl (fun m q => mapSet m q []) ([] : List (List Char × List Nat)))) hm1keys
    by_cases hemp : (List.range' 0 (text.length + 1 - L)).filter
        (fun pos => decide (p = (text.drop pos).take L)) = []
    · rw [rkPositions_eq_mapGet]
      rw [mapGet_filter_of_not_pred _ _ _ (fun v => decide (v.length ≠ 0))
        hkeysF hloop (by rw [hemp]; simp)]
      rw [hemp]
      rfl
    · rw [rkPositions_eq_mapGet]
      rw [mapGet_filter_of_pred _ _ _ (fun v => decide (v.length ≠ 0))
        hloop (by simpa using hemp)]
      rfl

/-! ## Rabin-Karp: assembling findAllPatterns -/

theorem mapSet_mem_generic {α β : Type} [DecidableEq α]
    {l : List (α × β)} {k : α} {v : β} :
    ∀ e ∈ mapSet l k v, e = (k, v) ∨ e ∈ l := by
  intro e he
  rw [mapSet] at he
  by_cases h : l.any (fun x => x.1 = k)
  · rw [if_pos h] at he
    obtain ⟨x, hx, hfx⟩ := List.mem_map.mp he
    by_cases hxc : x.1 = k
    · rw [if_pos hxc] at hfx
      exact Or.inl hfx.symm
    · rw [if_neg hxc] at hfx
      exact Or.inr (hfx ▸ hx)
  · rw [if_neg h] at he
    rcases List.mem_append.mp he with he | he
    · exact Or.inr he
    · exact Or.inl (by simpa using he)

theorem checkFold_keys (cand : List (List Char)) (sub : List Char) (pos : Nat)
    (pats : List (List Char)) :
    ∀ (qs : List (List Char)) (m : List (List Char × List Nat)),
      qs ⊆ pats → (∀ e ∈ m, e.1 ∈ pats) →
      ∀ e ∈ (qs.foldl (fun m q =>
        if cand.contains q ∧ q = sub then
          mapSet m q ((mapGet m q).getD [] ++ [pos]) else m) m), e.1 ∈ pats := by
  intro qs
  induction qs with
  | nil => intro m _ hm; exact hm
  | cons q qs ih =>
    intro m hsub hm
    rw [List.foldl_cons]
    refine ih _ (fun x hx => hsub (by simp [hx])) ?_
    by_cases hc : cand.contains q ∧ q = sub
    · rw [if_pos hc]
      intro e he
      rcases mapSet_mem_generic e he with he | he
      · rw [he]
        exact hsub (by simp)
      · exact hm e he
    · rw [if_neg hc]
      exact hm

theorem checkHashMatch_keys (text : List Char) (pH : List (Int × List (List Char)))
    (pos len : Nat) (pats : List (List Char)) (m : List (List Char × List Nat))
    (h : Int) (hm : ∀ e ∈ m, e.1 ∈ pats) :
    ∀ e ∈ checkHashMatch text pH pos len h pats m, e.1 ∈ pats := by
  rw [checkHashMatch]
  cases hb : mapGet pH h with
  | none => exact hm
  | some candidates =>
    exact checkFold_keys candidates _ pos pats pats m (fun x hx => hx) hm

theorem rkLoop_keys (text : List Char) (pH : List (Int × List (List Char)))
    (pats : List (List Char)) (L : Nat) :
    ∀ (fuel i : Nat) (h : Int) (m : List (List Char × List Nat)),
      (∀ e ∈ m, e.1 ∈ pats) →
      ∀ e ∈ rkLoop text pH pats L fuel h i m, e.1 ∈ pats := by
  intro fuel
  induction fuel with
  | zero => intro i h m hm; exact hm
  | succ fuel ih =>
    intro i h m hm
    rw [rkLoop]
    by_cases hi : i < text.length
    · rw [if_pos hi]
      exact ih _ _ _ (checkHashMatch_keys text pH _ L pats m _ hm)
    · rw [if_neg hi]
      exact hm

theorem m0_keys (pats : List (List Char)) :
    ∀ (qs : List (List Char)) (acc : List (List Char × List Nat)),
      qs ⊆ pats → (∀ e ∈ acc, e.1 ∈ pats) →
      ∀ e ∈ qs.foldl (fun m q => mapSet m q []) acc, e.1 ∈ pats := by
  intro qs
  induction qs with
  | nil => intro acc _ hm; exact hm
  | cons q qs ih =>
    intro acc hsub hm
    rw [List.foldl_cons]
    refine ih _ (fun x hx => hsub (by simp [hx])) ?_
    intro e he
    rcases mapSet_mem_generic e he with he | he
    · rw [he]
      exact hsub (by simp)
    · exact hm e he

theorem searchPOL_keys (text : List Char) (pH : List (Int × List (List Char)))
    (pats : List (List Char)) (L : Nat) :
    ∀ e ∈ searchPatternsOfLength text pH pats L, e.1 ∈ pats := by
  rw [searchPatternsOfLength]
  by_cases hlen : text.length < L
  · rw [if_pos hlen]
    simp
  · rw [if_neg hlen]
    intro e he
    have he' := List.mem_of_mem_filter he
    refine rkLoop_keys text pH pats L text.length L _ _ ?_ e he'
    refine checkHashMatch_keys text pH 0 L pats _ _ ?_
    exact m0_keys pats pats [] (fun x hx => hx) (by simp)

theorem mapGet_of_mem_nodup {α β : Type} [DecidableEq α] :
    ∀ (l : List (α × β)), (l.map (fun e => e.1)).Nodup →
      ∀ e ∈ l, mapGet l e.1 = some e.2 := by
  intro l
  induction l with
  | nil => intro _ e he; cases he
  | cons x l ih =>
    intro hnd e he
    simp only [List.map_cons, List.nodup_cons] at hnd
    rcases List.mem_cons.mp he with he | he
    · subst he
      rw [mapGet, List.find?_cons_of_pos _ (by simp)]
      rfl
    · have hx : x.1 ≠ e.1 := by
        intro h
        exact hnd.1 (h ▸ List.mem_map.mpr ⟨e, he, rfl⟩)
      rw [mapGet, List.find?_cons_of_neg _ (by simpa using hx)]
      exact ih hnd.2 e he

theorem byLen_getD (len : Nat) (hlen : 1 ≤ len) :
    ∀ (ps : List (List Char)) (acc : List (Nat × List (List Char))),
      (mapGet (ps.foldl (fun g q =>
        if q.length = 0 then g
        else mapSet g q.length ((mapGet g q.length).getD [] ++ [q])) acc) len).getD [] =
      (mapGet acc len).getD [] ++ ps.filter (fun q => decide (q.length = len)) := by
  intro ps
  induction ps with
  | nil => intro acc; simp
  | cons q ps ih =>
    intro acc
    rw [List.foldl_cons, List.filter_cons]
    by_cases hq0 : q.length = 0
    · rw [if_pos hq0, if_neg (by simp [hq0]; omega)]
      exact ih acc
    · rw [if_neg hq0]
      by_cases hql : q.length = len
      · rw [if_pos (by simp [hql]), ih, hql, mapGet_mapSet_self]
        simp
      · rw [if_neg (by simp [hql]), ih,
          mapGet_mapSet_ne _ _ _ _ (fun h => hql h.symm)]

theorem byLen_keys_nodup :
    ∀ (ps : List (List Char)) (acc : List (Nat × List (List Char))),
      (acc.map (fun e => e.1)).Nodup →
      ((ps.foldl (fun g q =>
        if q.length = 0 then g
        else mapSet g q.length ((mapGet g q.length).getD [] ++ [q])) acc).map
          (fun e => e.1)).Nodup := by
  intro ps
  induction ps with
  | nil => intro acc h; exact h
  | cons q ps ih =>
    intro acc h
    rw [List.foldl_cons]
    by_cases hq0 : q.length = 0
    · rw [if_pos hq0]
      exact ih acc h
    · rw [if_neg hq0]
      exact ih _ (keys_mapSet_nodup _ _ _ h)

theorem byLen_keys_pos :
    ∀ (ps : List (List Char)) (acc : List (Nat × List (List Char))),
      (∀ e ∈ acc, 1 ≤ e.1) →
      ∀ e ∈ ps.foldl (fun g q =>
        if q.length = 0 then g
        else mapSet g q.length ((mapGet g q.length).getD [] ++ [q])) acc, 1 ≤ e.1 := by
  intro ps
  induction ps with
  | nil => intro acc h e he; exact h e he
  | cons q ps ih =>
    intro acc h
    rw [List.foldl_cons]
    by_cases hq0 : q.length = 0
    · rw [if_pos hq0]
      exact ih acc h
    · rw [if_neg hq0]
      refine ih _ ?_
      intro e he
      rcases mapSet_mem_generic e he with he | he
      · rw [he]
        simpa using Nat.one_le_iff_ne_zero.mpr hq0
      · exact h e he

theorem mapGet_append_right_none {α β : Type} [DecidableEq α]
    (A B : List (α × β)) (k : α) (h : mapGet B k = none) :
    mapGet (A ++ B) k = mapGet A k := by
  simp only [mapGet, List.find?_append]
  simp only [mapGet] at h
  cases hfB : B.find? (fun e => decide (e.1 = k)) with
  | none =>
    cases hfA : A.find? (fun e => decide (e.1 = k)) <;> simp
  | some e =>
    rw [hfB] at h
    simp at h

theorem mapGet_append_left_none {α β : Type} [DecidableEq α]
    (A B : List (α × β)) (k : α) (h : mapGet A k = none) :
    mapGet (A ++ B) k = mapGet B k := by
  simp only [mapGet, List.find?_append]
  simp only [mapGet] at h
  cases hfA : A.find? (fun e => decide (e.1 = k)) with
  | none => simp
  | some e =>
    rw [hfA] at h
    simp at h

theorem naivePositions_eq_rangeFilter (p t : List Char) (hp : p ≠ []) :
    naivePositions p t =
      (List.range' 0 (t.length + 1 - p.length)).filter
        (fun pos => decide (p = (t.drop pos).take p.length)) := by
  have hL : 1 ≤ p.length := by
    cases p with
    | nil => exact absurd rfl hp
    | cons a l => simp
  have hpred : ∀ pos, occursAt p t pos = decide (p = (t.drop pos).take p.length) := by
    intro pos
    simp [occursAt, eq_comm]
  have hshort : ∀ pos : Nat, t.length - pos < p.length → occursAt p t pos = false := by
    intro pos hlt
    simp only [occursAt, decide_eq_false_iff_not]
    intro h
    have := congrArg List.length h
    simp [List.length_take, List.length_drop] at this
    omega
  rw [naivePositions, List.range_eq_range']
  by_cases hle : p.length ≤ t.length
  · nth_rewrite 1 [show t.length = (p.length - 1) + (t.length + 1 - p.length) by omega]
    rw [← List.range'_append, List.filter_append]
    have h2 : (List.range' (0 + 1 * (t.length + 1 - p.length)) (p.length - 1)).filter
        (occursAt p t) = [] := by
      rw [List.filter_eq_nil_iff]
      intro pos hpos
      rw [List.mem_range'] at hpos
      obtain ⟨i, hi, hpe⟩ := hpos
      rw [hshort pos (by omega)]
      simp
    rw [h2, List.append_nil, List.filter_congr (fun pos _ => hpred pos)]
  · have h0 : t.length + 1 - p.length = 0 := by omega
    rw [h0]
    rw [show List.range' 0 0 = ([] : List Nat) from rfl, List.filter_nil,
      List.filter_eq_nil_iff]
    intro pos hpos
    rw [List.mem_range'] at hpos
    obtain ⟨i, hi, hpe⟩ := hpos
    rw [hshort pos (by omega)]
    simp

theorem rk_foldl_flatMap (text : List Char) (pH : List (Int × List (List Char))) :
    ∀ (gs : List (Nat × List (List Char))) (acc : List (List Char × List Nat)),
      gs.foldl (fun results e =>
        if text.length < e.1 then results
        else results ++ searchPatternsOfLength text pH e.2 e.1) acc =
      acc ++ gs.flatMap (fun e =>
        if text.length < e.1 then []
        else searchPatternsOfLength text pH e.2 e.1) := by
  intro gs
  induction gs with
  | nil => intro acc; simp
  | cons e gs ih =>
    intro acc
    rw [List.foldl_cons, List.flatMap_cons, ih]
    by_cases he : text.length < e.1
    · rw [if_pos he, if_pos he]
      simp
    · rw [if_neg he, if_neg he]
      simp

theorem rk_flatMap_get_none (text : List Char) (pH : List (Int × List (List Char)))
    (p : List Char) :
    ∀ gs : List (Nat × List (List Char)),
      (∀ e ∈ gs, ∀ q ∈ e.2, q ≠ p) →
      mapGet (gs.flatMap (fun e =>
        if text.length < e.1 then []
        else searchPatternsOfLength text pH e.2 e.1)) p = none := by
  intro gs
  induction gs with
  | nil => intro _; rfl
  | cons e gs ih =>
    intro h
    rw [List.flatMap_cons, mapGet_append_left_none]
    · exact ih (fun x hx => h x (by simp [hx]))
    · by_cases he : text.length < e.1
      · rw [if_pos he]
        rfl
      · rw [if_neg he]
        refine mapGet_none_no_key _ _ ?_
        intro x hx
        exact h e (by simp) x.1 (searchPOL_keys text pH e.2 e.1 x hx)

theorem nodup_middle_keys {α β : Type} (A B : List (α × β)) (e : α × β)
    (h : ((A ++ e :: B).map (fun x => x.1)).Nodup) :
    (∀ x ∈ A, x.1 ≠ e.1) ∧ (∀ x ∈ B, x.1 ≠ e.1) := by
  rw [List.map_append, List.map_cons] at h
  rcases List.nodup_append.mp h with ⟨_, hnd2, hdisj⟩
  constructor
  · intro x hx heq
    exact hdisj (List.mem_map.mpr ⟨x, hx, heq⟩) (by simp)
  · intro x hx heq
    rcases List.nodup_cons.mp hnd2 with ⟨hnotin, _⟩
    exact hnotin (List.mem_map.mpr ⟨x, hx, heq⟩)

/-- C5: for every duplicate-free set of nonempty patterns and every text,
RabinKarpMatcher.findAllPatterns reports, for each pattern, exactly the
start offsets where that pattern literally occurs in the text — no false
positives and no missed occurrences — in the exact-arithmetic embedding of
the hash computation (faithful to the JavaScript floats for pattern lengths
up to 128). -/
theorem C5_rabin_karp_exact_positions
    (patterns : List (List Char)) (text p : List Char)
    (hnd : patterns.Nodup) (hne : ∀ q ∈ patterns, q ≠ []) (hp : p ∈ patterns) :
    rkPositions (findAllPatterns patterns text) p = naivePositions p text := by
  have hplen : p.length ≠ 0 := fun h => (hne p hp) (List.length_eq_zero.mp h)
  have hL1 : 1 ≤ p.length := Nat.one_le_iff_ne_zero.mpr hplen
  rw [findAllPatterns]
  by_cases hguard : text.length = 0 ∨ patterns.length = 0
  · have ht0 : text.length = 0 := by
      rcases hguard with h | h
      · exact h
      · exact absurd hp (by simp [List.length_eq_zero.mp h])
    rw [if_pos hguard, rkPositions_eq_mapGet,
      show mapGet ([] : List (List Char × List Nat)) p = none from rfl,
      naivePositions_eq_rangeFilter p text (hne p hp),
      show text.length + 1 - p.length = 0 by omega]
    rfl
  · rw [if_neg hguard]
    obtain ⟨BL, hBL⟩ : ∃ BL, patterns.foldl (fun g q =>
        if q.length = 0 then g
        else mapSet g q.length ((mapGet g q.length).getD [] ++ [q])) [] = BL := ⟨_, rfl⟩
    have hkeysnd := byLen_keys_nodup patterns [] (by simp)
    rw [hBL] at hkeysnd
    have hkeypos := byLen_keys_pos patterns [] (by simp)
    rw [hBL] at hkeypos
    have hentry : ∀ e ∈ BL, e.2 = patterns.filter (fun q => decide (q.length = e.1)) := by
      intro e he
      have h1 := mapGet_of_mem_nodup BL hkeysnd e he
      have h2 := byLen_getD e.1 (hkeypos e he) patterns []
      rw [hBL, h1] at h2
      simpa using h2
    have hgroup : (mapGet BL p.length).getD [] =
        patterns.filter (fun q => decide (q.length = p.length)) := by
      have := byLen_getD p.length hL1 patterns []
      rw [hBL] at this
      simpa using this
    have hexists : ∃ g, mapGet BL p.length = some g := by
      cases hmg : mapGet BL p.length with
      | some g => exact ⟨g, rfl⟩
      | none =>
        rw [hmg] at hgroup
        have hmem : p ∈ patterns.filter (fun q => decide (q.length = p.length)) :=
          List.mem_filter.mpr ⟨hp, by simp⟩
        rw [← hgroup] at hmem
        cases hmem
    obtain ⟨g, hg⟩ := hexists
    have hgval : g = patterns.filter (fun q => decide (q.length = p.length)) := by
      rw [hg] at hgroup
      simpa using hgroup
    have hgnd : g.Nodup := by
      rw [hgval]
      exact hnd.filter _
    have hpg : p ∈ g := by
      rw [hgval]
      exact List.mem_filter.mpr ⟨hp, by simp⟩
    have hmemBL : (p.length, g) ∈ BL := mapGet_mem hg
    obtain ⟨A, B, hsplitBL⟩ := List.append_of_mem hmemBL
    have hAB := nodup_middle_keys A B (p.length, g) (by rw [← hsplitBL]; exact hkeysnd)
    have hA' : ∀ e ∈ A, ∀ q ∈ e.2, q ≠ p := by
      intro e he q hq heq
      have heBL : e ∈ BL := by
        rw [hsplitBL]
        simp [he]
      rw [hentry e heBL] at hq
      have hql : q.length = e.1 := by simpa using (List.mem_filter.mp hq).2
      exact hAB.1 e he (by rw [← hql, heq])
    have hB' : ∀ e ∈ B, ∀ q ∈ e.2, q ≠ p := by
      intro e he q hq heq
      have heBL : e ∈ BL := by
        rw [hsplitBL]
        simp [he]
      rw [hentry e heBL] at hq
      have hql : q.length = e.1 := by simpa using (List.mem_filter.mp hq).2
      exact hAB.2 e he (by rw [← hql, heq])
    have hAnone := rk_flatMap_get_none text (computePatternHashes patterns) p A hA'
    have hBnone := rk_flatMap_get_none text (computePatternHashes patterns) p B hB'
    have hbucket := computePatternHashes_mem patterns p hp hplen
    rw [rkPositions_eq_mapGet, hBL,
      rk_foldl_flatMap text (computePatternHashes patterns) BL [], List.nil_append,
      hsplitBL]
    simp only [List.flatMap_append, List.flatMap_cons]
    by_cases hfit : text.length < p.length
    · rw [if_pos hfit, List.nil_append,
        mapGet_append_left_none _ _ p hAnone, hBnone,
        naivePositions_eq_rangeFilter p text (hne p hp),
        show text.length + 1 - p.length = 0 by omega]
      rfl
    · rw [if_neg hfit,
        mapGet_append_left_none _ _ p hAnone,
        mapGet_append_right_none _ _ p hBnone,
        ← rkPositions_eq_mapGet,
        searchPOL_positions text (computePatternHashes patterns) g p.length p
          hgnd hpg hL1 hbucket,
        naivePositions_eq_rangeFilter p text (hne p hp)]

theorem C5_rabin_karp_exact_positions_witness :
    ([['a'], ['a', 'b']].Nodup ∧ (∀ q ∈ [['a'], ['a', 'b']], q ≠ []) ∧
      ['a', 'b'] ∈ [['a'], ['a', 'b']]) ∧
    rkPositions (findAllPatterns [['a'], ['a', 'b']] ['a', 'b', 'a', 'b']) ['a', 'b'] =
      naivePositions ['a', 'b'] ['a', 'b', 'a', 'b'] :=
  ⟨⟨by decide, by decide, by decide⟩,
    C5_rabin_karp_exact_positions [['a'], ['a', 'b']] ['a', 'b', 'a', 'b'] ['a', 'b']
      (by decide) (by decide) (by decide)⟩

set_option maxRecDepth 40000 in
/-- C5: the rolling-hash scan misses real occurrences once the pattern
length reaches 129.  Math.pow(256, 128) overflows the IEEE double range to
Infinity, Infinity %% 101 is NaN, every rolling hash becomes NaN and
Map.get(NaN) finds no bucket, so only the first window (hashed exactly by
computeHash) is ever verified: for the pattern of 129 'a's in the text
'b' followed by 129 'a's, the double-semantics embedding reports no
occurrence although the pattern occurs at position 1 — where the naive scan
and the exact-integer embedding both find it. -/
theorem C5_rolling_hash_overflow_missed_match :
    rkPositions
        (findAllPatternsJS [List.replicate 129 'a'] ('b' :: List.replicate 129 'a'))
        (List.replicate 129 'a') = [] ∧
      naivePositions (List.replicate 129 'a') ('b' :: List.replicate 129 'a') = [1] ∧
      rkPositions
        (findAllPatterns [List.replicate 129 'a'] ('b' :: List.replicate 129 'a'))
        (List.replicate 129 'a') = [1] :=
  ⟨by decide, by decide, by decide⟩

end CodeEditor
